import Mathlib

/-!
# A formal model of the `mchttpinfowrapper` core

Shallow embedding, in Lean 4, of the core of the `mchttpinfowrapper`
repository: the Minecraft process supervisor (`mchttpinfowrapper/minecraft.py`),
its HTTP guard layer (`mchttpinfowrapper/web.py`) and the archive format
sniffing (`api_server/mchttpinfowrapper/archive.py`).

The embedding follows the Python source function by function:

* Python `str`/`os.path` primitives (`os.path.normpath`, `os.path.join`,
  `str.startswith`, `str.lstrip`, `os.path.dirname` for the POSIX flavour used
  by the program) are reimplemented over `List Char`;
* the reader/writer world lock (`acquire_read` / `release_read` /
  `acquire_write` / `release_write`, built on `asyncio.Condition` and
  `asyncio.Lock`) is modelled as a labelled transition system whose atomic
  steps are the suspension points of the cooperative (single threaded) event
  loop, with `asyncio.Condition.wait` releasing the underlying lock while
  waiting, exactly as the library does;
* the log-event dispatcher (`trigger_log_events`, `add_log_event`,
  `remove_log_event`, `send_command_and_wait`) is modelled with CPython's
  index-based list iteration semantics, so that a callback removing entries
  from `self._log_events` during the iteration shifts later entries exactly as
  it does at run time;
* `world_extract` is modelled as the list of filesystem operations it performs
  (its trace), so that what it touches before and after the final rename
  sequence can be stated.
-/

namespace MCHTTP

/-! ## Python string and POSIX path primitives

`os.path` on the POSIX platform the program targets: `normcase` is the
identity, `normpath`, `join`, `dirname` are `posixpath.normpath`,
`posixpath.join`, `posixpath.dirname`.  All functions work on `List Char`
under the hood so that every definition is structural and kernel-reducible. -/

/-- Python `str.split(sep)` for a single-character separator, on char lists:
`"a//b".split("/") = ["a", "", "b"]`, `"".split("/") = [""]`. -/
def splitOnCharList (c : Char) : List Char → List (List Char)
  | [] => [[]]
  | x :: xs =>
    match splitOnCharList c xs with
    | [] => [[]]
    | y :: ys => if x = c then [] :: y :: ys else (x :: y) :: ys

/-- Python `str.startswith(pre)`. -/
def pyStartsWith (s pre : String) : Bool :=
  pre.data.isPrefixOf s.data

/-- Python `str.endswith(suf)`. -/
def pyEndsWith (s suf : String) : Bool :=
  suf.data.isSuffixOf s.data

/-- Python `str.lstrip('/')`. -/
def lstripSlash (s : String) : String :=
  String.mk (s.data.dropWhile (fun c => c = '/'))

/-- `os.path.normcase` on POSIX is the identity. -/
def pyNormcase (s : String) : String := s

/-- The component loop of `posixpath.normpath`: drop `''` and `'.'` components,
fold `'..'` into the accumulated components unless it would climb above the
start of a relative path (where it is kept) or the root of an absolute path
(where it is dropped). -/
def normpathComps (initSlashes : Bool) : List (List Char) → List (List Char) → List (List Char)
  | acc, [] => acc
  | acc, comp :: rest =>
    if comp = [] ∨ comp = ['.'] then normpathComps initSlashes acc rest
    else if comp ≠ ['.', '.'] ∨ (¬ initSlashes ∧ acc = []) ∨ acc.getLast? = some ['.', '.'] then
      normpathComps initSlashes (acc ++ [comp]) rest
    else if acc ≠ [] then normpathComps initSlashes acc.dropLast rest
    else normpathComps initSlashes acc rest

/-- `posixpath.normpath`, translated clause by clause (including the special
case keeping exactly two leading slashes). -/
def pyNormpath (p : String) : String :=
  if p = "" then "." else
  let d := p.data
  let slashes1 : Nat := if d.take 1 = ['/'] then 1 else 0
  let slashes : Nat :=
    if d.take 2 = ['/', '/'] ∧ ¬ d.take 3 = ['/', '/', '/'] then 2 else slashes1
  let comps := splitOnCharList '/' d
  let newComps := normpathComps (slashes > 0) [] comps
  let joined := List.intercalate ['/'] newComps
  let res := List.replicate slashes '/' ++ joined
  if res = [] then "." else String.mk res

/-- Two-argument `posixpath.join`: `join(a, b)` is `b` if `b` is absolute,
otherwise `a + b` when `a` is empty or ends in a slash, otherwise
`a + '/' + b`.  It performs no normalization. -/
def pyJoin (a b : String) : String :=
  if b.data.take 1 = ['/'] then b
  else if a = "" ∨ a.data.getLast? = some '/' then a ++ b
  else a ++ "/" ++ b

/-- Index of the first occurrence of `c`. -/
def findIdxOfChar (c : Char) : List Char → Option Nat
  | [] => none
  | x :: xs => if x = c then some 0 else (findIdxOfChar c xs).map (· + 1)

/-- Python `str.rfind(c)` for a single character, as an `Option` index: the
index of the last occurrence. -/
def rfindChar (c : Char) (l : List Char) : Option Nat :=
  (findIdxOfChar c l.reverse).map (fun k => l.length - 1 - k)

/-- Python `str.rstrip('/')` on char lists. -/
def rstripSlashList (l : List Char) : List Char :=
  (l.reverse.dropWhile (fun c => c = '/')).reverse

/-- `posixpath.dirname`: everything up to the last `'/'`, with trailing slashes
stripped unless the head consists only of slashes. -/
def pyDirname (p : String) : String :=
  let d := p.data
  let i : Nat := match rfindChar '/' d with
    | some k => k + 1
    | none => 0
  let head := d.take i
  if head ≠ [] ∧ head ≠ List.replicate head.length '/' then
    String.mk (rstripSlashList head)
  else
    String.mk head

/-! ## Server status and the start/stop guards (C4)

`ServerWrapper` keeps `self._status` as one of the strings `'stopped'`,
`'starting'`, `'running'`, `'stopping'`; `can_start` / `can_stop` are its
guard properties, and the HTTP layer (`web.py`) consults them before invoking
`start()` / `stop()`. -/

inductive Status
  | stopped
  | starting
  | running
  | stopping
  deriving DecidableEq, Repr

/-- `ServerWrapper.can_start`: `self.status == 'stopped'`. -/
def can_start (s : Status) : Bool := s = Status.stopped

/-- `ServerWrapper.can_stop`: `self.status == 'running'`. -/
def can_stop (s : Status) : Bool := s = Status.running

/-- Reply of the `/server/start` and `/server/stop` POST handlers, after
authentication: either the 405 method-not-allowed response carrying the
current server status, or acceptance (the wrapper coroutine was invoked). -/
inductive LifecycleReply
  | methodNotAllowed (currentStatus : Status)
  | accepted
  deriving DecidableEq, Repr

/-- `web.py handle_post_server_start` after authentication: if not
`can_start`, return 405 with the current status and do not touch the wrapper;
otherwise invoke `ServerWrapper.start`.  The boolean records whether
`start` was invoked (queued) at all. -/
def handle_post_server_start (s : Status) : LifecycleReply × Bool :=
  if can_start s then (.accepted, true) else (.methodNotAllowed s, false)

/-- `web.py handle_post_server_stop` after authentication, symmetrical to
`handle_post_server_start` with `can_stop`. -/
def handle_post_server_stop (s : Status) : LifecycleReply × Bool :=
  if can_stop s then (.accepted, true) else (.methodNotAllowed s, false)

/-! ## Archive format sniffing (C8)

`archive.py ArchiveReader.new`: read the first four bytes, classify. -/

/-- The four-byte zip local-file-header signature `50 4B 03 04`. -/
def zipSig : List Nat := [0x50, 0x4b, 0x03, 0x04]

/-- The three-byte gzip(deflate) signature `1F 8B 08`. -/
def gzipSig : List Nat := [0x1f, 0x8b, 0x08]

inductive ArchiveKind
  | zip
  | gzipTar
  deriving DecidableEq, Repr

/-- `ArchiveReader.new`: `sig = file.read(4)` (up to four bytes), then
`sig == b'PK\x03\x04'` gives a `ZipReader`, `sig[:3] == b'\x1f\x8b\x08'`
gives a `TarReader`, anything else returns `None` (the unrecognized-format
condition). -/
def archiveReaderNew (file : List Nat) : Option ArchiveKind :=
  let sig := file.take 4
  if sig = zipSig then some ArchiveKind.zip
  else if sig.take 3 = gzipSig then some ArchiveKind.gzipTar
  else none

/-! ## Player roster and the join/leave callbacks (C10)

`self._players` is a Python dict from player name to join timestamp,
`self._last_part` the optional last-departure timestamp.  Timestamps are
abstracted as naturals.  A Python dict is modelled as an insertion-ordered
association list with unique keys. -/

/-- `\w` of the module-level regular expressions (word character). -/
def isWordChar (c : Char) : Bool := c.isAlphanum || c = '_'

/-- `_player_left_re = ^(?P<name>\w*) left the game$`: the message must be
`name + " left the game"` with `name` made of word characters (possibly
empty); the match's `name` group is returned. -/
def matchPlayerLeft (msg : String) : Option String :=
  let suf := " left the game".data
  if suf.isSuffixOf msg.data then
    let name := msg.data.take (msg.data.length - suf.length)
    if name.all isWordChar then some (String.mk name) else none
  else none

/-- `_player_joined_re = ^(?P<name>\w*) joined the game$`. -/
def matchPlayerJoined (msg : String) : Option String :=
  let suf := " joined the game".data
  if suf.isSuffixOf msg.data then
    let name := msg.data.take (msg.data.length - suf.length)
    if name.all isWordChar then some (String.mk name) else none
  else none

/-- `name in d` for the dict model. -/
def dictContains (d : List (String × Nat)) (k : String) : Bool :=
  d.any (fun p => p.1 = k)

/-- `d[k] = v` for the dict model: overwrite the existing key, else append. -/
def dictSet (d : List (String × Nat)) (k : String) (v : Nat) : List (String × Nat) :=
  if dictContains d k then d.map (fun p => if p.1 = k then (k, v) else p)
  else d ++ [(k, v)]

/-- `del d[k]` for the dict model: `none` models the `KeyError` raised when
the key is absent. -/
def dictDelete (d : List (String × Nat)) (k : String) : Option (List (String × Nat)) :=
  if dictContains d k then some (d.filter (fun p => ¬ p.1 = k)) else none

structure Roster where
  players : List (String × Nat)
  lastPart : Option Nat
  deriving DecidableEq, Repr

/-- `ServerWrapper._player_left_callback`: `del self._players[name]` and only
then `self._last_part = now`.  A missing key makes `del` raise `KeyError`
(`.error ()`) before the timestamp assignment is reached, so on the error
path the roster (including `lastPart`) is left as it was. -/
def playerLeftCallback (r : Roster) (name : String) (now : Nat) : Except Unit Roster :=
  match dictDelete r.players name with
  | none => Except.error ()
  | some ps => Except.ok { players := ps, lastPart := some now }

/-- `ServerWrapper._player_joined_callback`: `self._players[name] = now`. -/
def playerJoinedCallback (r : Roster) (name : String) (now : Nat) : Roster :=
  { r with players := dictSet r.players name now }

/-- The roster effect of dispatching one log message through the built-in
registrations of `ServerWrapper.__init__` in registration order (joined,
left, started; the started callback does not touch the roster).
`trigger_log_events` has no exception handler around `callback(m)`, so a
`KeyError` raised by the leave callback propagates out of the dispatch. -/
def rosterDispatch (r : Roster) (msg : String) (now : Nat) : Except Unit Roster :=
  let r1 := match matchPlayerJoined msg with
    | some name => playerJoinedCallback r name now
    | none => r
  match matchPlayerLeft msg with
  | some name => playerLeftCallback r1 name now
  | none => Except.ok r1

/-! ## The world access lock (C1, C2, C7)

`ServerWrapper` keeps `self._world_reading` (a counter),
`self._world_read_cond` (an `asyncio.Condition`) and `self._world_write_lock`
(an `asyncio.Lock`).  The methods are:

* `acquire_read`: `cond.acquire()`; `reading += 1`; `cond.release()`;
* `release_read`: `cond.acquire()`; `reading = max(0, reading - 1)`;
  `cond.notify_all()`; `cond.release()`;
* `acquire_write`: `cond.acquire()`;
  `cond.wait_for(lambda: reading == 0)`; `write_lock.acquire()`;
* `release_write`: `write_lock.release()`; `cond.release()`.

We model the whole program as a labelled transition system over one state.
The event loop is single-threaded and cooperative, so an atomic step of the
system is a stretch of code between suspension points.  The crucial library
fact, modelled exactly: `asyncio.Condition.wait` (the loop body of
`wait_for`) *releases* the underlying condition lock while waiting, and must
reacquire it after being woken by `notify_all` before `wait_for` rechecks its
predicate.

There are `n` writer tasks (in the program: `start`, which holds the write
side for the whole server process lifetime, and the world-import path), each
with a program counter through `acquire_write` … `release_write`, and an
unbounded anonymous population of reader tasks (world exports), of which the
state keeps only what the code keeps: the reader count and who currently
holds the condition's underlying lock.  Writer `0` is the process supervisor:
`start` spawns the child process only after `acquire_write` returns
(`live := true`), and `_clean_up_after_stop` calls `release_write` only after
`process.wait()` has returned (`live = false`). -/

/-- Program counter of one writer task through `acquire_write`:
`idle` (before/after), `entered` (holds the condition lock, about to evaluate
`wait_for`'s predicate), `waiting` (inside `cond.wait()`, lock released),
`notified` (woken by `notify_all`, reacquiring the lock), `passed` (predicate
observed true while holding the lock, about to take the write lock), `locked`
(write lock held: the writer holds the world in write mode). -/
inductive WriterPC
  | idle
  | entered
  | waiting
  | notified
  | passed
  | locked
  deriving DecidableEq, Repr

/-- Who currently holds the condition's underlying mutex: nobody, a reader in
`acquire_read`, a reader in `release_read`, or writer `i` (in `acquire_write`
or holding through to `release_write`). -/
inductive CondOwner (n : Nat)
  | free
  | readerAcq
  | readerRel
  | writer (i : Fin n)
  deriving DecidableEq, Repr

/-- Global state: `reading = self._world_reading`, `condOwner` the holder of
`self._world_read_cond`'s lock, `wpc i` the program counter of writer `i`,
`writeLocked = self._world_write_lock.locked()`, `live` whether the child
server process is currently spawned. -/
structure LockSys (n : Nat) where
  reading : Nat
  condOwner : CondOwner n
  wpc : Fin n → WriterPC
  writeLocked : Bool
  live : Bool

/-- Initial state of `ServerWrapper.__init__`. -/
def initSys (n : Nat) : LockSys n :=
  { reading := 0, condOwner := CondOwner.free, wpc := fun _ => WriterPC.idle,
    writeLocked := false, live := false }

/-- One atomic step of the cooperative event loop.  Reader steps carry no
task identity because readers touch no per-task state; `reading - 1` is
truncated subtraction, matching `max(0, self._world_reading - 1)`. -/
inductive LockStep {n : Nat} : LockSys n → LockSys n → Prop
  /-- a reader's `acquire_read` obtains the condition lock (blocking while
  anybody else holds it) -/
  | rAcqStart {s : LockSys n} (h : s.condOwner = CondOwner.free) :
      LockStep s { s with condOwner := CondOwner.readerAcq }
  /-- the reader increments the count and releases the condition lock (no
  suspension point in between) -/
  | rAcqEnd {s : LockSys n} (h : s.condOwner = CondOwner.readerAcq) :
      LockStep s { s with reading := s.reading + 1, condOwner := CondOwner.free }
  /-- a reader's `release_read` obtains the condition lock -/
  | rRelStart {s : LockSys n} (h : s.condOwner = CondOwner.free) :
      LockStep s { s with condOwner := CondOwner.readerRel }
  /-- the reader decrements the count (clamped at zero), `notify_all` wakes
  every writer waiting on the condition, and the lock is released -/
  | rRelEnd {s : LockSys n} (h : s.condOwner = CondOwner.readerRel) :
      LockStep s
        { s with
          reading := s.reading - 1
          condOwner := CondOwner.free
          wpc := fun j =>
            if s.wpc j = WriterPC.waiting then WriterPC.notified else s.wpc j }
  /-- writer `i` begins `acquire_write`: obtains the condition lock -/
  | wAcq {s : LockSys n} (i : Fin n) (h : s.condOwner = CondOwner.free)
      (hp : s.wpc i = WriterPC.idle) :
      LockStep s
        { s with
          condOwner := CondOwner.writer i
          wpc := Function.update s.wpc i WriterPC.entered }
  /-- `wait_for` evaluates its predicate while holding the lock and sees
  `reading == 0` -/
  | wCheckPass {s : LockSys n} (i : Fin n) (h : s.condOwner = CondOwner.writer i)
      (hp : s.wpc i = WriterPC.entered) (hr : s.reading = 0) :
      LockStep s { s with wpc := Function.update s.wpc i WriterPC.passed }
  /-- `wait_for` sees `reading != 0` and calls `cond.wait()`, which releases
  the condition lock and suspends -/
  | wCheckFail {s : LockSys n} (i : Fin n) (h : s.condOwner = CondOwner.writer i)
      (hp : s.wpc i = WriterPC.entered) (hr : s.reading ≠ 0) :
      LockStep s
        { s with
          condOwner := CondOwner.free
          wpc := Function.update s.wpc i WriterPC.waiting }
  /-- a notified writer's `cond.wait()` reacquires the condition lock and
  returns into `wait_for`, which will recheck the predicate -/
  | wReacq {s : LockSys n} (i : Fin n) (h : s.condOwner = CondOwner.free)
      (hp : s.wpc i = WriterPC.notified) :
      LockStep s
        { s with
          condOwner := CondOwner.writer i
          wpc := Function.update s.wpc i WriterPC.entered }
  /-- `write_lock.acquire()` succeeds (still holding the condition lock) -/
  | wLock {s : LockSys n} (i : Fin n) (h : s.condOwner = CondOwner.writer i)
      (hp : s.wpc i = WriterPC.passed) (hw : s.writeLocked = false) :
      LockStep s
        { s with
          writeLocked := true
          wpc := Function.update s.wpc i WriterPC.locked }
  /-- `release_write`: release the write lock and the condition lock (no
  suspension point in between).  Writer `0` is `start`: its release runs in
  `_clean_up_after_stop` only after the child process exit was observed. -/
  | wRelease {s : LockSys n} (i : Fin n) (h : s.condOwner = CondOwner.writer i)
      (hp : s.wpc i = WriterPC.locked) (hl : (i : Nat) = 0 → s.live = false) :
      LockStep s
        { s with
          writeLocked := false
          condOwner := CondOwner.free
          wpc := Function.update s.wpc i WriterPC.idle }
  /-- `start` spawns the child process; in the source this happens after
  `acquire_write` returned, i.e. with writer `0` in write mode -/
  | spawn {s : LockSys n} (h0 : 0 < n) (hp : s.wpc ⟨0, h0⟩ = WriterPC.locked)
      (hl : s.live = false) :
      LockStep s { s with live := true }
  /-- the child process exits (`process.wait()` returns in
  `_clean_up_after_stop`) -/
  | procExit {s : LockSys n} (hl : s.live = true) :
      LockStep s { s with live := false }

/-- States reachable from `ServerWrapper.__init__` by event-loop steps. -/
inductive ReachableSys {n : Nat} : LockSys n → Prop
  | init : ReachableSys (initSys n)
  | step {s t : LockSys n} (hs : ReachableSys s) (hst : LockStep s t) : ReachableSys t

/-- The inductive invariant of the lock system: a writer owns the condition
lock exactly in `entered`/`passed`/`locked`; once the predicate was seen true
(`passed` or `locked`), the reader count is zero; the write lock is held
exactly when some writer is `locked`; the child process is live only while
writer `0` (start) holds write mode. -/
def SysInv {n : Nat} (s : LockSys n) : Prop :=
  (∀ i : Fin n, s.condOwner = CondOwner.writer i ↔
      (s.wpc i = WriterPC.entered ∨ s.wpc i = WriterPC.passed ∨
        s.wpc i = WriterPC.locked)) ∧
  (∀ i : Fin n, (s.wpc i = WriterPC.passed ∨ s.wpc i = WriterPC.locked) →
      s.reading = 0) ∧
  (s.writeLocked = true ↔ ∃ i : Fin n, s.wpc i = WriterPC.locked) ∧
  (s.live = true → ∃ h0 : 0 < n, s.wpc ⟨0, h0⟩ = WriterPC.locked)

/-! ## Log event dispatch (C5, C6)

`self._log_events` is a Python list of `(pattern, callback)` pairs;
`add_log_event` appends, `remove_log_event` removes by value (the first equal
element), and `trigger_log_events` runs `for pattern, callback in
self._log_events`, which in CPython is index-based iteration: the iterator
keeps an integer cursor into the *live* list, so a callback that removes an
element at or before its own position shifts later elements one slot left
under the running iteration.

A callback is modelled as data: the registrations it removes (`removes`, by
registration identity), the suppress flag it returns (`ret`), and whether it
stores its match into `send_command_and_wait`'s `mm` (`record`).  This covers
every callback the program registers: the three built-in handlers (remove
nothing, record nothing) and the one-shot response handler of
`send_command_and_wait` (removes itself, records its match).  The regex
`pattern.match(msg)` is abstracted as a boolean predicate on the message. -/

structure LogEvent where
  /-- registration identity (Python: object identity of the tuple) -/
  id : Nat
  /-- whether `pattern.match(msg)` succeeds -/
  pat : String → Bool
  /-- ids of the registrations the callback passes to `remove_log_event` -/
  removes : List Nat
  /-- the suppress flag the callback returns -/
  ret : Bool
  /-- whether the callback stores its match (the one-shot's `mm = m`) -/
  record : Bool

/-- `remove_log_event(e)`, i.e. `self._log_events.remove(e)`: drop the first
element with the given identity. -/
def removeFirstId (evs : List LogEvent) (rid : Nat) : List LogEvent :=
  evs.eraseP (fun e => e.id = rid)

/-- All removals performed by one callback invocation, in order. -/
def runRemovals (evs : List LogEvent) (rs : List Nat) : List LogEvent :=
  rs.foldl removeFirstId evs

/-- State of one `trigger_log_events` call: the live registration list, the
accumulated `suppress` flag, the recorded match of a one-shot (`mm`), and, as
specification-only ghost state, the ids of the callbacks that actually ran. -/
structure DispState where
  evs : List LogEvent
  suppress : Bool
  recorded : Option String
  fired : List Nat

/-- The `for pattern, callback in self._log_events` loop of
`trigger_log_events` from cursor `i`, with CPython's list-iterator semantics:
stop as soon as the cursor is past the end of the *current* list; on a match
run the callback (apply its removals, fold its return value into `suppress`
with `or`) and advance the cursor. -/
def triggerFrom (msg : String) : Nat → DispState → DispState
  | i, st =>
    if h : i < st.evs.length then
      let e := st.evs.get ⟨i, h⟩
      if e.pat msg then
        triggerFrom msg (i + 1)
          { evs := runRemovals st.evs e.removes
            suppress := st.suppress || e.ret
            recorded := if e.record then some msg else st.recorded
            fired := st.fired ++ [e.id] }
      else triggerFrom msg (i + 1) st
    else st
termination_by i st => st.evs.length - i
decreasing_by
  · have key : ∀ (rs : List Nat) (l : List LogEvent),
        (runRemovals l rs).length ≤ l.length := by
      intro rs
      induction rs with
      | nil => intro l; exact le_rfl
      | cons r rs ih =>
        intro l
        calc (runRemovals (removeFirstId l r) rs).length
            ≤ (removeFirstId l r).length := ih (removeFirstId l r)
          _ ≤ l.length := (List.eraseP_sublist l).length_le
    have h2 := key (st.evs.get ⟨i, h⟩).removes st.evs
    omega
  · omega

/-- `trigger_log_events(msg)`: run the loop from cursor 0 with `suppress`
initially false. -/
def triggerLogEvents (msg : String) (evs : List LogEvent) : DispState :=
  triggerFrom msg 0 { evs := evs, suppress := false, recorded := none, fired := [] }

/-- The specification's account of `dispatch`: the message is suppressed iff
*some* registered pair whose pattern matches has a callback returning the
suppress flag (logical OR across all matches).  Stated from the spec's words
for comparison with `triggerLogEvents`. -/
def specSuppressed (msg : String) (evs : List LogEvent) : Bool :=
  evs.any (fun e => e.pat msg && e.ret)

/-- The ids of all registered events matching `msg`, in registration order —
the handlers the specification says always run. -/
def specMatchingIds (msg : String) (evs : List LogEvent) : List Nat :=
  (evs.filter (fun e => e.pat msg)).map (fun e => e.id)

/-- `handle_output` dispatching one more log line: thread the live
registration list through `trigger_log_events` and keep the latest value of
the one-shot's `mm` (overwritten when a one-shot fires, kept otherwise). -/
def relayOne (acc : List LogEvent × Option String) (msg : String) :
    List LogEvent × Option String :=
  let st := triggerLogEvents msg acc.1
  (st.evs, match st.recorded with
    | some m => some m
    | none => acc.2)

/-- The one-shot handler `send_command_and_wait` registers before sending:
its callback removes its own registration (`remove_log_event(e)`), stores
the match (`mm = m`, releasing the semaphore) and returns the `suppress`
argument. -/
def oneShotEvent (pat : String → Bool) (sup : Bool) (oid : Nat) : LogEvent :=
  { id := oid, pat := pat, removes := [oid], ret := sup, record := true }

/-- `send_command_and_wait(line, pattern, suppress)`: append the one-shot
with `add_log_event` — and only *then* send the command, so no response can
be missed.  `msgs` is the stream of log messages dispatched after the send;
the returned value is `mm` once the waiter is released: the match recorded
by the one-shot, or `none` while no message has matched (the caller is
still blocked on the semaphore). -/
def sendCommandAndWait (others : List LogEvent) (pat : String → Bool)
    (sup : Bool) (oid : Nat) (msgs : List String) : Option String :=
  (msgs.foldl relayOne (others ++ [oneShotEvent pat sup oid], (none : Option String))).2

/-! ## World import: `world_extract` (C3, C9)

`ServerWrapper.world_extract(archive, dirname)` iterates the archive's entry
names, strips the `dirname` prefix, extracts each entry under `world_new`,
and finally publishes the new tree with the rename sequence.  The archive is
modelled by its entry-name list (directories carry a trailing `/`, as
`ArchiveReader.__next__` guarantees); the filesystem effect is modelled as
the list of operations performed, in order.  `failAt` injects an extraction
error (`archive.extract_into` raising) at the given entry index, cutting the
run short exactly where the exception propagates out of the coroutine. -/

/-- Python `member.partition(dirname)[2]` under the call-site guarantee
`member.startswith(dirname)` and `dirname != ''`: the first occurrence of
`dirname` is then at index 0, so the after-part is everything past it. -/
def partitionTail (member dirname : String) : String :=
  String.mk (member.data.drop dirname.data.length)

/-- The prefix-stripped relative path of one archive member, or `none` when
the member is skipped: `member = normcase(normpath(member))`; skip unless
`member.startswith(dirname)`; take everything after the `dirname` prefix
(the whole member when `dirname` is empty) and `lstrip('/')` it. -/
def memberTail (dirname member : String) : Option String :=
  let m := pyNormcase (pyNormpath member)
  if pyStartsWith m dirname then
    let tail := if dirname ≠ "" then partitionTail m dirname else m
    some (lstripSlash tail)
  else none

inductive MemberOutcome
  | skipped
  | assertFailed
  | extract (outPath : String) (isDir : Bool)
  deriving DecidableEq, Repr

/-- The per-member body of the `for member in archive` loop:
`is_dir = member.endswith('/')` (before normalization), prefix stripping,
`out_path = os.path.join(world_new_path, tail)`, and the
`assert out_path.startswith(world_new_path)` guard.  `extract` means the
member is written (a directory creation, or directory creation for the
parent plus the file write). -/
def processMember (worldNewPath dirname member : String) : MemberOutcome :=
  let isDir := member.data.getLast? = some '/'
  match memberTail dirname member with
  | none => MemberOutcome.skipped
  | some tail =>
    let outPath := pyJoin worldNewPath tail
    if pyStartsWith outPath worldNewPath then MemberOutcome.extract outPath isDir
    else MemberOutcome.assertFailed

inductive FsOp
  | rmtree (p : String)
  | mkdirs (p : String)
  | writeFile (p : String)
  | rename (src dst : String)
  deriving DecidableEq, Repr

/-- The path arguments of a filesystem operation. -/
def FsOp.paths : FsOp → List String
  | rmtree p => [p]
  | mkdirs p => [p]
  | writeFile p => [p]
  | rename src dst => [src, dst]

/-- The member loop of `world_extract`, accumulating filesystem operations;
`false` means the loop was aborted by an exception (a failed assert, or the
injected `extract_into` error at index `failAt`, which leaves the partially
written file behind).  Directory members only run `os.makedirs`. -/
def extractLoop (worldNewPath dirname : String) (failAt : Option Nat) :
    List String → Nat → List FsOp × Bool
  | [], _ => ([], true)
  | member :: rest, idx =>
    match processMember worldNewPath dirname member with
    | MemberOutcome.skipped => extractLoop worldNewPath dirname failAt rest (idx + 1)
    | MemberOutcome.assertFailed => ([], false)
    | MemberOutcome.extract outPath isDir =>
      if isDir then
        let next := extractLoop worldNewPath dirname failAt rest (idx + 1)
        (FsOp.mkdirs outPath :: next.1, next.2)
      else
        let ops := [FsOp.mkdirs (pyDirname outPath), FsOp.writeFile outPath]
        if failAt = some idx then (ops, false)
        else
          let next := extractLoop worldNewPath dirname failAt rest (idx + 1)
          (ops ++ next.1, next.2)

/-- Whether the `world_new` / `world_old` / `world` directories exist when
`world_extract` reaches the corresponding `os.path.exists` check (under the
confinement hypothesis of C9 the extraction loop cannot create or remove
them, so the initial values are the checked values). -/
structure WorldDirs where
  worldNewExists : Bool
  worldOldExists : Bool
  worldExists : Bool
  deriving DecidableEq, Repr

/-- The publish sequence at the end of a successful `world_extract`: remove a
stale `world_old`, move the live `world` aside to `world_old`, move
`world_new` into place. -/
def finalRenames (wd : String) (dirs : WorldDirs) : List FsOp :=
  (if dirs.worldOldExists then [FsOp.rmtree (pyJoin wd "world_old")] else []) ++
  (if dirs.worldExists then
    [FsOp.rename (pyJoin wd "world") (pyJoin wd "world_old")] else []) ++
  [FsOp.rename (pyJoin wd "world_new") (pyJoin wd "world")]

/-- `dirname = os.path.normcase(os.path.normpath(dirname))`, then `'.'`
becomes `''`. -/
def processedDirname (dirname : String) : String :=
  let d := pyNormcase (pyNormpath dirname)
  if d = "." then "" else d

inductive ExtractResult
  | notStopped
  | failed (ops : List FsOp)
  | completed (ops : List FsOp)
  deriving DecidableEq, Repr

/-- `ServerWrapper.world_extract` as its filesystem trace: normalize
`dirname`; bail out if the server is not stopped (no operations); remove a
stale `world_new`; run the member loop; on success append the publish
sequence. -/
def worldExtract (wd : String) (status : Status) (dirs : WorldDirs)
    (dirname : String) (members : List String) (failAt : Option Nat) : ExtractResult :=
  let dn := processedDirname dirname
  if status ≠ Status.stopped then ExtractResult.notStopped
  else
    let worldNewPath := pyJoin wd "world_new"
    let pre := if dirs.worldNewExists then [FsOp.rmtree worldNewPath] else []
    let body := extractLoop worldNewPath dn failAt members 0
    if body.2 then ExtractResult.completed (pre ++ body.1 ++ finalRenames wd dirs)
    else ExtractResult.failed (pre ++ body.1)

/-! ### Where an operation lands: segment-level path resolution -/

/-- One component of resolving `.` and `..` in a slash-split path, at the
segment level: empty and `.` components vanish, `..` pops the previous
component when there is one (keeping unmatched leading `..` of a relative
path), anything else is pushed. -/
def resolveStep (acc : List (List Char)) (comp : List Char) : List (List Char) :=
  if comp = [] ∨ comp = ['.'] then acc
  else if comp = ['.', '.'] then
    if acc ≠ [] ∧ acc.getLast? ≠ some ['.', '.'] then acc.dropLast else acc ++ [comp]
  else acc ++ [comp]

/-- The resolved segment list of a path: which directory chain it designates
relative to the process working directory. -/
def resolveSegs (p : String) : List (List Char) :=
  (splitOnCharList '/' p.data).foldl resolveStep []

/-- `p` designates `base` itself or something inside it. -/
def Touches (base p : String) : Prop :=
  resolveSegs base <+: resolveSegs p

instance (base p : String) : Decidable (Touches base p) :=
  inferInstanceAs (Decidable (resolveSegs base <+: resolveSegs p))

/-- A normal path segment: nonempty and neither `.` nor `..`. -/
def cleanSeg (c : List Char) : Bool :=
  ¬ (c = [] ∨ c = ['.'] ∨ c = ['.', '.'])

/-- A nonempty normal relative path: what a well-formed archive entry's
stripped relative path looks like (in particular, no `..` traversal). -/
def cleanTail (tail : String) : Bool :=
  tail ≠ "" && (splitOnCharList '/' tail.data).all cleanSeg

/-- C9's confinement hypothesis for one archive member: either it is skipped
by prefix stripping, or its stripped relative path is empty (the entry is the
stripped directory itself, extracted as `world_new`), or it is a nonempty
normal relative path. -/
def memberConfined (dirname member : String) : Bool :=
  match memberTail dirname member with
  | none => true
  | some tail => tail = "" || cleanTail tail

/-- The operation stays away from the live `world` directory and from the
`world_old` rollback copy: none of its path arguments designates either
directory or anything inside it. -/
def SafeOp (wd : String) (op : FsOp) : Prop :=
  ∀ p ∈ FsOp.paths op,
    ¬ Touches (pyJoin wd "world") p ∧ ¬ Touches (pyJoin wd "world_old") p

/-! ## Theorems -/

/-- **C4.** For every status value, a start request is rejected — answered
with the method-not-allowed response carrying the current status, without
invoking (queueing) `ServerWrapper.start` and hence without side effects —
unless the status is `stopped`; and a stop request is likewise rejected
unless the status is `running`.  (`AlreadyRunning` is the specification's
name for the rejection; in the code it is the 405 response built from
`can_start` / `can_stop`.) -/
theorem start_stop_guarded (s : Status) :
    ((handle_post_server_start s).2 = true ↔ s = Status.stopped) ∧
    ((handle_post_server_start s).1 = LifecycleReply.methodNotAllowed s ↔
      s ≠ Status.stopped) ∧
    ((handle_post_server_stop s).2 = true ↔ s = Status.running) ∧
    ((handle_post_server_stop s).1 = LifecycleReply.methodNotAllowed s ↔
      s ≠ Status.running) := by
  cases s <;> decide

/-- **C8.** Format sniffing: a buffer whose first four bytes are
`50 4B 03 04` is classified as zip, one whose first three bytes are
`1F 8B 08` as gzip-compressed tar, and any other prefix yields the
unrecognized-format condition (`None`). -/
theorem archive_format_sniffing (buf : List Nat) :
    (buf.take 4 = zipSig → archiveReaderNew buf = some ArchiveKind.zip) ∧
    (buf.take 3 = gzipSig → archiveReaderNew buf = some ArchiveKind.gzipTar) ∧
    (buf.take 4 ≠ zipSig → buf.take 3 ≠ gzipSig → archiveReaderNew buf = none) := by
  have htt : (buf.take 4).take 3 = buf.take 3 := by
    rw [List.take_take]
    norm_num
  refine ⟨?_, ?_, ?_⟩
  · intro h
    simp [archiveReaderNew, h]
  · intro h
    have h4 : buf.take 4 ≠ zipSig := by
      intro hz
      rw [← htt, hz] at h
      simp [zipSig, gzipSig] at h
    simp [archiveReaderNew, h4, htt, h]
  · intro h4 h3
    simp [archiveReaderNew, h4, htt, h3]

/-- Concrete runs of the format sniffer: a zip-signature buffer, a
gzip-signature buffer, and an all-zero buffer. -/
theorem archive_format_sniffing_witness :
    ([0x50, 0x4b, 0x03, 0x04, 0x00].take 4 = zipSig ∧
      archiveReaderNew [0x50, 0x4b, 0x03, 0x04, 0x00] = some ArchiveKind.zip) ∧
    ([0x1f, 0x8b, 0x08, 0x00].take 3 = gzipSig ∧
      archiveReaderNew [0x1f, 0x8b, 0x08, 0x00] = some ArchiveKind.gzipTar) ∧
    ([0, 0, 0, 0].take 4 ≠ zipSig ∧ [0, 0, 0, 0].take 3 ≠ gzipSig ∧
      archiveReaderNew [0, 0, 0, 0] = none) :=
  ⟨⟨by decide, (archive_format_sniffing _).1 (by decide)⟩,
    ⟨by decide, (archive_format_sniffing _).2.1 (by decide)⟩,
    ⟨by decide, by decide, (archive_format_sniffing _).2.2 (by decide) (by decide)⟩⟩

/-- **C3.** The claim says the import rejects the archive entry
`../../etc/passwd` with a `PathEscape` assertion failure and leaves the live
world untouched.  The code does not: with working directory `wd` and no
prefix to strip, the member is accepted (`extract`), because the assert
compares the *unnormalized* join `wd/world_new/../../etc/passwd` against the
`wd/world_new` prefix, which trivially holds; the written path resolves to
`etc/passwd`, outside `world_new` (third conjunct), and a whole import run
containing only this entry even completes and publishes (fourth conjunct). -/
theorem path_escape_not_rejected :
    processMember (pyJoin "wd" "world_new") "" "../../etc/passwd" =
      MemberOutcome.extract "wd/world_new/../../etc/passwd" false ∧
    pyStartsWith "wd/world_new/../../etc/passwd" (pyJoin "wd" "world_new") = true ∧
    pyNormpath "wd/world_new/../../etc/passwd" = "etc/passwd" ∧
    pyStartsWith (pyNormpath "wd/world_new/../../etc/passwd") (pyJoin "wd" "world_new")
      = false ∧
    worldExtract "wd" Status.stopped ⟨false, false, true⟩ "" ["../../etc/passwd"] none =
      ExtractResult.completed
        [FsOp.mkdirs "wd/world_new/../../etc",
          FsOp.writeFile "wd/world_new/../../etc/passwd",
          FsOp.rename (pyJoin "wd" "world") (pyJoin "wd" "world_old"),
          FsOp.rename (pyJoin "wd" "world_new") (pyJoin "wd" "world")] := by
  refine ⟨by decide, by decide, by decide, by decide, by decide⟩

/-- **C10.** Dispatching a leave-pattern message for a player name that is
not in the roster makes `_player_left_callback`'s `del self._players[name]`
raise `KeyError`, which propagates out of `trigger_log_events` (no handler
catches it), and since the deletion precedes `self._last_part = now`, the
last-departure timestamp is not updated: the whole dispatch errors with the
roster state unchanged. -/
theorem leave_unknown_player_keyerror (r : Roster) (name : String) (now : Nat)
    (hw : name.data.all isWordChar = true)
    (habs : dictContains r.players name = false) :
    rosterDispatch r (name ++ " left the game") now = Except.error () := by
  have hdata : (name ++ " left the game").data = name.data ++ " left the game".data :=
    String.data_append name " left the game"
  have hleft : matchPlayerLeft (name ++ " left the game") = some name := by
    unfold matchPlayerLeft
    rw [hdata]
    have hsuf : (" left the game".data).isSuffixOf (name.data ++ " left the game".data)
        = true := by
      rw [List.isSuffixOf_iff_suffix]
      exact ⟨name.data, rfl⟩
    rw [if_pos hsuf]
    have hlen : (name.data ++ " left the game".data).length - (" left the game".data).length
        = name.data.length := by
      simp
    rw [hlen]
    have htake : (name.data ++ " left the game".data).take name.data.length = name.data := by
      simp
    rw [htake, if_pos hw]
  have hjoin : matchPlayerJoined (name ++ " left the game") = none := by
    unfold matchPlayerJoined
    rw [hdata]
    have hnsuf : (" joined the game".data).isSuffixOf (name.data ++ " left the game".data)
        = false := by
      rw [Bool.eq_false_iff]
      intro hs
      rw [List.isSuffixOf_iff_suffix] at hs
      have hA : (" left the game".data) <:+ (name.data ++ " left the game".data) :=
        ⟨name.data, rfl⟩
      rcases List.suffix_or_suffix_of_suffix hA hs with h | h
      · exact absurd h (by decide)
      · have := h.length_le
        simp at this
    rw [if_neg (by simp [hnsuf])]
  unfold rosterDispatch
  rw [hjoin, hleft]
  unfold playerLeftCallback
  simp [dictDelete, habs]

/-- A concrete C10 run: roster containing only `Bob`, a leave message for
`Alice`. -/
theorem leave_unknown_player_keyerror_witness :
    "Alice".data.all isWordChar = true ∧
    dictContains [("Bob", 5)] "Alice" = false ∧
    rosterDispatch ⟨[("Bob", 5)], none⟩ ("Alice" ++ " left the game") 7 =
      Except.error () :=
  ⟨by decide, by decide,
    leave_unknown_player_keyerror ⟨[("Bob", 5)], none⟩ "Alice" 7 (by decide) (by decide)⟩

/-! ### The lock invariant -/

/-- The invariant holds in the initial state. -/
theorem sysInv_init (n : Nat) : SysInv (initSys n) := by
  refine ⟨?_, ?_, ?_, ?_⟩ <;> simp [SysInv, initSys]

/-- Every event-loop step preserves the invariant. -/
theorem sysInv_step {n : Nat} {s t : LockSys n} (hI : SysInv s) (hst : LockStep s t) :
    SysInv t := by
  obtain ⟨I1, I2, I3, I4⟩ := hI
  -- writers that do not hold the condition lock are in none of the held states
  have notHeld : ∀ j : Fin n, s.condOwner ≠ CondOwner.writer j →
      ¬(s.wpc j = WriterPC.entered ∨ s.wpc j = WriterPC.passed ∨
        s.wpc j = WriterPC.locked) :=
    fun j hne hR => hne ((I1 j).mpr hR)
  -- the write lock is free whenever no writer is in a held state
  have wlFalse : (∀ j : Fin n, s.wpc j ≠ WriterPC.locked) → s.writeLocked = false := by
    intro hno
    cases hwl : s.writeLocked with
    | false => rfl
    | true => obtain ⟨j, hj⟩ := I3.mp hwl; exact absurd hj (hno j)
  cases hst with
  | rAcqStart h =>
      have hnh := fun j => notHeld j (by rw [h]; exact fun hh => CondOwner.noConfusion hh)
      exact ⟨fun j => ⟨fun hc => CondOwner.noConfusion hc, fun hR => absurd hR (hnh j)⟩,
        I2, I3, I4⟩
  | rAcqEnd h =>
      have hnh := fun j => notHeld j (by rw [h]; exact fun hh => CondOwner.noConfusion hh)
      refine ⟨fun j => ⟨fun hc => CondOwner.noConfusion hc, fun hR => absurd hR (hnh j)⟩,
        fun j hj => absurd (hj.elim (fun h1 => Or.inr (Or.inl h1))
          (fun h2 => Or.inr (Or.inr h2))) (hnh j),
        I3, I4⟩
  | rRelStart h =>
      have hnh := fun j => notHeld j (by rw [h]; exact fun hh => CondOwner.noConfusion hh)
      exact ⟨fun j => ⟨fun hc => CondOwner.noConfusion hc, fun hR => absurd hR (hnh j)⟩,
        I2, I3, I4⟩
  | rRelEnd h =>
      have hnh := fun j => notHeld j (by rw [h]; exact fun hh => CondOwner.noConfusion hh)
      have hwpc : ∀ j : Fin n,
          (if s.wpc j = WriterPC.waiting then WriterPC.notified else s.wpc j) ≠
              WriterPC.entered ∧
          (if s.wpc j = WriterPC.waiting then WriterPC.notified else s.wpc j) ≠
              WriterPC.passed ∧
          (if s.wpc j = WriterPC.waiting then WriterPC.notified else s.wpc j) ≠
              WriterPC.locked := by
        intro j
        by_cases hw : s.wpc j = WriterPC.waiting
        · rw [if_pos hw]
          exact ⟨fun hh => WriterPC.noConfusion hh, fun hh => WriterPC.noConfusion hh,
            fun hh => WriterPC.noConfusion hh⟩
        · rw [if_neg hw]
          have := hnh j
          exact ⟨fun hh => this (Or.inl hh), fun hh => this (Or.inr (Or.inl hh)),
            fun hh => this (Or.inr (Or.inr hh))⟩
      refine ⟨?_, ?_, ?_, ?_⟩ <;> dsimp only
      · intro j
        refine ⟨fun hc => CondOwner.noConfusion hc, fun hR => absurd hR ?_⟩
        obtain ⟨h1, h2, h3⟩ := hwpc j
        exact fun hR => hR.elim (fun hh => h1 hh)
          (fun hh => hh.elim (fun hh2 => h2 hh2) (fun hh3 => h3 hh3))
      · intro j hj
        obtain ⟨h1, h2, h3⟩ := hwpc j
        exact absurd hj (fun hj => hj.elim (fun hh => h2 hh) (fun hh => h3 hh))
      · constructor
        · intro hwl
          obtain ⟨j, hj⟩ := I3.mp hwl
          exact absurd (Or.inr (Or.inr hj)) (hnh j)
        · intro hex
          obtain ⟨j, hj⟩ := hex
          exact absurd hj (hwpc j).2.2
      · intro hl
        obtain ⟨h0, hp0⟩ := I4 hl
        exact absurd (Or.inr (Or.inr hp0)) (hnh ⟨0, h0⟩)
  | wAcq i h hp =>
      have hnh := fun j => notHeld j (by rw [h]; exact fun hh => CondOwner.noConfusion hh)
      refine ⟨?_, ?_, ?_, ?_⟩ <;> dsimp only
      · intro j
        by_cases hij : j = i
        · subst hij
          refine ⟨fun _ => Or.inl ?_, fun _ => rfl⟩
          exact Function.update_same j WriterPC.entered s.wpc
        · refine ⟨fun hc => ?_, fun hR => ?_⟩
          · have : i = j := by
              have := (CondOwner.writer.injEq (n := n) i j).mp hc
              exact this
            exact absurd this.symm hij
          · rw [Function.update_noteq hij] at hR
            exact absurd hR (hnh j)
      · intro j hj
        by_cases hij : j = i
        · subst hij
          rw [Function.update_same] at hj
          exact absurd hj (fun hj => hj.elim (fun hh => WriterPC.noConfusion hh)
            (fun hh => WriterPC.noConfusion hh))
        · rw [Function.update_noteq hij] at hj
          exact absurd (hj.elim (fun h1 => Or.inr (Or.inl h1))
            (fun h2 => Or.inr (Or.inr h2))) (hnh j)
      · constructor
        · intro hwl
          obtain ⟨j, hj⟩ := I3.mp hwl
          exact absurd (Or.inr (Or.inr hj)) (hnh j)
        · intro hex
          obtain ⟨j, hj⟩ := hex
          by_cases hij : j = i
          · subst hij; rw [Function.update_same] at hj; exact WriterPC.noConfusion hj
          · rw [Function.update_noteq hij] at hj
            exact absurd (Or.inr (Or.inr hj)) (hnh j)
      · intro hl
        obtain ⟨h0, hp0⟩ := I4 hl
        exact absurd (Or.inr (Or.inr hp0)) (hnh ⟨0, h0⟩)
  | wCheckPass i h hp hr =>
      have hne : ∀ j : Fin n, j ≠ i → s.condOwner ≠ CondOwner.writer j := by
        intro j hij hc
        rw [h] at hc
        exact hij ((CondOwner.writer.injEq (n := n) i j).mp hc).symm
      have hnh := fun j hij => notHeld j (hne j hij)
      refine ⟨?_, ?_, ?_, ?_⟩ <;> dsimp only
      · intro j
        by_cases hij : j = i
        · subst hij
          refine ⟨fun _ => Or.inr (Or.inl ?_), fun _ => h⟩
          exact Function.update_same j WriterPC.passed s.wpc
        · refine ⟨fun hc => absurd hc (hne j hij), fun hR => ?_⟩
          rw [Function.update_noteq hij] at hR
          exact absurd hR (hnh j hij)
      · intro j _
        exact hr
      · constructor
        · intro hwl
          obtain ⟨j, hj⟩ := I3.mp hwl
          by_cases hij : j = i
          · subst hij; rw [hp] at hj; exact WriterPC.noConfusion hj
          · exact absurd (Or.inr (Or.inr hj)) (hnh j hij)
        · intro hex
          obtain ⟨j, hj⟩ := hex
          by_cases hij : j = i
          · subst hij; rw [Function.update_same] at hj; exact WriterPC.noConfusion hj
          · rw [Function.update_noteq hij] at hj
            exact absurd (Or.inr (Or.inr hj)) (hnh j hij)
      · intro hl
        obtain ⟨h0, hp0⟩ := I4 hl
        by_cases hi0 : (⟨0, h0⟩ : Fin n) = i
        · rw [hi0, hp] at hp0; exact WriterPC.noConfusion hp0
        · exact absurd (Or.inr (Or.inr hp0)) (hnh ⟨0, h0⟩ hi0)
  | wCheckFail i h hp hr =>
      have hne : ∀ j : Fin n, j ≠ i → s.condOwner ≠ CondOwner.writer j := by
        intro j hij hc
        rw [h] at hc
        exact hij ((CondOwner.writer.injEq (n := n) i j).mp hc).symm
      have hnh := fun j hij => notHeld j (hne j hij)
      refine ⟨?_, ?_, ?_, ?_⟩ <;> dsimp only
      · intro j
        refine ⟨fun hc => CondOwner.noConfusion hc, fun hR => ?_⟩
        by_cases hij : j = i
        · subst hij
          rw [Function.update_same] at hR
          exact absurd hR (fun hR => hR.elim (fun hh => WriterPC.noConfusion hh)
            (fun hh => hh.elim (fun h2 => WriterPC.noConfusion h2)
              (fun h3 => WriterPC.noConfusion h3)))
        · rw [Function.update_noteq hij] at hR
          exact absurd hR (hnh j hij)
      · intro j hj
        by_cases hij : j = i
        · subst hij
          rw [Function.update_same] at hj
          exact absurd hj (fun hj => hj.elim (fun hh => WriterPC.noConfusion hh)
            (fun hh => WriterPC.noConfusion hh))
        · rw [Function.update_noteq hij] at hj
          exact absurd (hj.elim (fun h1 => Or.inr (Or.inl h1))
            (fun h2 => Or.inr (Or.inr h2))) (hnh j hij)
      · constructor
        · intro hwl
          obtain ⟨j, hj⟩ := I3.mp hwl
          by_cases hij : j = i
          · subst hij; rw [hp] at hj; exact WriterPC.noConfusion hj
          · exact absurd (Or.inr (Or.inr hj)) (hnh j hij)
        · intro hex
          obtain ⟨j, hj⟩ := hex
          by_cases hij : j = i
          · subst hij; rw [Function.update_same] at hj; exact WriterPC.noConfusion hj
          · rw [Function.update_noteq hij] at hj
            exact absurd (Or.inr (Or.inr hj)) (hnh j hij)
      · intro hl
        obtain ⟨h0, hp0⟩ := I4 hl
        by_cases hi0 : (⟨0, h0⟩ : Fin n) = i
        · rw [hi0, hp] at hp0; exact WriterPC.noConfusion hp0
        · exact absurd (Or.inr (Or.inr hp0)) (hnh ⟨0, h0⟩ hi0)
  | wReacq i h hp =>
      have hnh := fun j => notHeld j (by rw [h]; exact fun hh => CondOwner.noConfusion hh)
      refine ⟨?_, ?_, ?_, ?_⟩ <;> dsimp only
      · intro j
        by_cases hij : j = i
        · subst hij
          refine ⟨fun _ => Or.inl ?_, fun _ => rfl⟩
          exact Function.update_same j WriterPC.entered s.wpc
        · refine ⟨fun hc => ?_, fun hR => ?_⟩
          · have : i = j := (CondOwner.writer.injEq (n := n) i j).mp hc
            exact absurd this.symm hij
          · rw [Function.update_noteq hij] at hR
            exact absurd hR (hnh j)
      · intro j hj
        by_cases hij : j = i
        · subst hij
          rw [Function.update_same] at hj
          exact absurd hj (fun hj => hj.elim (fun hh => WriterPC.noConfusion hh)
            (fun hh => WriterPC.noConfusion hh))
        · rw [Function.update_noteq hij] at hj
          exact absurd (hj.elim (fun h1 => Or.inr (Or.inl h1))
            (fun h2 => Or.inr (Or.inr h2))) (hnh j)
      · constructor
        · intro hwl
          obtain ⟨j, hj⟩ := I3.mp hwl
          exact absurd (Or.inr (Or.inr hj)) (hnh j)
        · intro hex
          obtain ⟨j, hj⟩ := hex
          by_cases hij : j = i
          · subst hij; rw [Function.update_same] at hj; exact WriterPC.noConfusion hj
          · rw [Function.update_noteq hij] at hj
            exact absurd (Or.inr (Or.inr hj)) (hnh j)
      · intro hl
        obtain ⟨h0, hp0⟩ := I4 hl
        exact absurd (Or.inr (Or.inr hp0)) (hnh ⟨0, h0⟩)
  | wLock i h hp hw =>
      have hne : ∀ j : Fin n, j ≠ i → s.condOwner ≠ CondOwner.writer j := by
        intro j hij hc
        rw [h] at hc
        exact hij ((CondOwner.writer.injEq (n := n) i j).mp hc).symm
      have hnh := fun j hij => notHeld j (hne j hij)
      refine ⟨?_, ?_, ?_, ?_⟩ <;> dsimp only
      · intro j
        by_cases hij : j = i
        · subst hij
          refine ⟨fun _ => Or.inr (Or.inr ?_), fun _ => h⟩
          exact Function.update_same j WriterPC.locked s.wpc
        · refine ⟨fun hc => absurd hc (hne j hij), fun hR => ?_⟩
          rw [Function.update_noteq hij] at hR
          exact absurd hR (hnh j hij)
      · intro j _
        exact I2 i (Or.inl hp)
      · constructor
        · intro _
          exact ⟨i, Function.update_same i WriterPC.locked s.wpc⟩
        · intro _
          rfl
      · intro hl
        obtain ⟨h0, hp0⟩ := I4 hl
        by_cases hi0 : (⟨0, h0⟩ : Fin n) = i
        · rw [hi0, hp] at hp0; exact WriterPC.noConfusion hp0
        · exact absurd (Or.inr (Or.inr hp0)) (hnh ⟨0, h0⟩ hi0)
  | wRelease i h hp hl =>
      have hne : ∀ j : Fin n, j ≠ i → s.condOwner ≠ CondOwner.writer j := by
        intro j hij hc
        rw [h] at hc
        exact hij ((CondOwner.writer.injEq (n := n) i j).mp hc).symm
      have hnh := fun j hij => notHeld j (hne j hij)
      refine ⟨?_, ?_, ?_, ?_⟩ <;> dsimp only
      · intro j
        refine ⟨fun hc => CondOwner.noConfusion hc, fun hR => ?_⟩
        by_cases hij : j = i
        · subst hij
          rw [Function.update_same] at hR
          exact absurd hR (fun hR => hR.elim (fun hh => WriterPC.noConfusion hh)
            (fun hh => hh.elim (fun h2 => WriterPC.noConfusion h2)
              (fun h3 => WriterPC.noConfusion h3)))
        · rw [Function.update_noteq hij] at hR
          exact absurd hR (hnh j hij)
      · intro j hj
        by_cases hij : j = i
        · subst hij
          rw [Function.update_same] at hj
          exact absurd hj (fun hj => hj.elim (fun hh => WriterPC.noConfusion hh)
            (fun hh => WriterPC.noConfusion hh))
        · rw [Function.update_noteq hij] at hj
          exact absurd (hj.elim (fun h1 => Or.inr (Or.inl h1))
            (fun h2 => Or.inr (Or.inr h2))) (hnh j hij)
      · constructor
        · intro hwl; exact absurd hwl (fun hwl => Bool.noConfusion hwl)
        · intro hex
          obtain ⟨j, hj⟩ := hex
          by_cases hij : j = i
          · subst hij; rw [Function.update_same] at hj; exact WriterPC.noConfusion hj
          · rw [Function.update_noteq hij] at hj
            exact absurd (Or.inr (Or.inr hj)) (hnh j hij)
      · intro hlv
        obtain ⟨h0, hp0⟩ := I4 hlv
        by_cases hi0 : (⟨0, h0⟩ : Fin n) = i
        · exact absurd (hl (by rw [← hi0])) (by rw [hlv]; exact fun hh => Bool.noConfusion hh)
        · have := (I1 ⟨0, h0⟩).mpr (Or.inr (Or.inr hp0))
          rw [h] at this
          exact absurd ((CondOwner.writer.injEq (n := n) i ⟨0, h0⟩).mp this).symm hi0
  | spawn h0 hp hl =>
      exact ⟨I1, I2, I3, fun _ => ⟨h0, hp⟩⟩
  | procExit hl =>
      exact ⟨I1, I2, I3, fun hc => Bool.noConfusion hc⟩

/-- Every reachable state of the world access lock satisfies the invariant. -/
theorem reachable_inv {n : Nat} {s : LockSys n} (h : ReachableSys s) : SysInv s := by
  induction h with
  | init => exact sysInv_init n
  | step _ hst ih => exact sysInv_step ih hst

/-- A step that newly brings writer `i` to `locked` is its
`write_lock.acquire()` after `wait_for` returned: it starts from `passed`
with the condition lock held by `i`. -/
theorem step_into_locked {n : Nat} {s t : LockSys n} {i : Fin n} (hst : LockStep s t)
    (ht : t.wpc i = WriterPC.locked) (hs : s.wpc i ≠ WriterPC.locked) :
    s.wpc i = WriterPC.passed ∧ s.condOwner = CondOwner.writer i := by
  cases hst with
  | rAcqStart h => exact absurd ht hs
  | rAcqEnd h => exact absurd ht hs
  | rRelStart h => exact absurd ht hs
  | rRelEnd h =>
      dsimp only at ht
      by_cases hw : s.wpc i = WriterPC.waiting
      · rw [if_pos hw] at ht; exact WriterPC.noConfusion ht
      · rw [if_neg hw] at ht; exact absurd ht hs
  | wAcq j h hp =>
      dsimp only at ht
      by_cases hij : i = j
      · subst hij; rw [Function.update_same] at ht; exact WriterPC.noConfusion ht
      · rw [Function.update_noteq hij] at ht; exact absurd ht hs
  | wCheckPass j h hp hr =>
      dsimp only at ht
      by_cases hij : i = j
      · subst hij; rw [Function.update_same] at ht; exact WriterPC.noConfusion ht
      · rw [Function.update_noteq hij] at ht; exact absurd ht hs
  | wCheckFail j h hp hr =>
      dsimp only at ht
      by_cases hij : i = j
      · subst hij; rw [Function.update_same] at ht; exact WriterPC.noConfusion ht
      · rw [Function.update_noteq hij] at ht; exact absurd ht hs
  | wReacq j h hp =>
      dsimp only at ht
      by_cases hij : i = j
      · subst hij; rw [Function.update_same] at ht; exact WriterPC.noConfusion ht
      · rw [Function.update_noteq hij] at ht; exact absurd ht hs
  | wLock j h hp hw =>
      dsimp only at ht
      by_cases hij : i = j
      · subst hij; exact ⟨hp, h⟩
      · rw [Function.update_noteq hij] at ht; exact absurd ht hs
  | wRelease j h hp hl =>
      dsimp only at ht
      by_cases hij : i = j
      · subst hij; rw [Function.update_same] at ht; exact WriterPC.noConfusion ht
      · rw [Function.update_noteq hij] at ht; exact absurd ht hs
  | spawn h0 hp hl => exact absurd ht hs
  | procExit hl => exact absurd ht hs

/-- A step that increases the reader count is a reader's increment inside
`acquire_read`, performed while that reader holds the condition lock. -/
theorem step_reading_increase {n : Nat} {s t : LockSys n} (hst : LockStep s t)
    (h : s.reading < t.reading) : s.condOwner = CondOwner.readerAcq := by
  cases hst <;> dsimp only at h <;> first | assumption | exact absurd h (by omega)

/-- While writer `i` holds the condition lock, a step leaves the lock either
still held by `i` or free — never held by a reader or by another writer. -/
theorem step_owner_cases {n : Nat} {s t : LockSys n} (hst : LockStep s t)
    (i : Fin n) (hown : s.condOwner = CondOwner.writer i) :
    t.condOwner = CondOwner.writer i ∨ t.condOwner = CondOwner.free := by
  cases hst with
  | rAcqStart h => rw [hown] at h; exact CondOwner.noConfusion h
  | rAcqEnd h => rw [hown] at h; exact CondOwner.noConfusion h
  | rRelStart h => rw [hown] at h; exact CondOwner.noConfusion h
  | rRelEnd h => rw [hown] at h; exact CondOwner.noConfusion h
  | wAcq j h hp => rw [hown] at h; exact CondOwner.noConfusion h
  | wCheckPass j h hp hr => exact Or.inl hown
  | wCheckFail j h hp hr => exact Or.inr rfl
  | wReacq j h hp => rw [hown] at h; exact CondOwner.noConfusion h
  | wLock j h hp hw => exact Or.inl hown
  | wRelease j h hp hl => exact Or.inr rfl
  | spawn h0 hp hl => exact Or.inl hown
  | procExit hl => exact Or.inl hown

/-- While writer `i` holds the condition lock, no other writer's program
counter moves. -/
theorem step_wpc_other {n : Nat} {s t : LockSys n} (hst : LockStep s t)
    (i k : Fin n) (hown : s.condOwner = CondOwner.writer i) (hki : k ≠ i) :
    t.wpc k = s.wpc k := by
  have hji : ∀ j : Fin n, s.condOwner = CondOwner.writer j → j = i := by
    intro j hj
    rw [hown] at hj
    exact ((CondOwner.writer.injEq (n := n) i j).mp hj).symm
  cases hst with
  | rAcqStart h => rfl
  | rAcqEnd h => rfl
  | rRelStart h => rfl
  | rRelEnd h => rw [hown] at h; exact CondOwner.noConfusion h
  | wAcq j h hp => rw [hown] at h; exact CondOwner.noConfusion h
  | wCheckPass j h hp hr =>
      dsimp only
      exact Function.update_noteq (fun hkj => hki (hkj.trans (hji j h))) _ _
  | wCheckFail j h hp hr =>
      dsimp only
      exact Function.update_noteq (fun hkj => hki (hkj.trans (hji j h))) _ _
  | wReacq j h hp => rw [hown] at h; exact CondOwner.noConfusion h
  | wLock j h hp hw =>
      dsimp only
      exact Function.update_noteq (fun hkj => hki (hkj.trans (hji j h))) _ _
  | wRelease j h hp hl =>
      dsimp only
      exact Function.update_noteq (fun hkj => hki (hkj.trans (hji j h))) _ _
  | spawn h0 hp hl => rfl
  | procExit hl => rfl

/-- **C1.** In every reachable state of the world access lock, under any
interleaving of `acquire_read`/`release_read` with writers: (a) while writer
`i` holds write mode (`locked`), the reader count is zero; (b) the step that
lets a writer proceed past `acquire_write` (into `locked`) can only be taken
from a state whose reader count is zero; (c) no step taken while writer `i`
holds the gate (the condition lock) increases the reader count — readers
increment only while they themselves hold the gate. -/
theorem lock_writer_reader_exclusion {n : Nat} (s t : LockSys n) (i : Fin n)
    (hs : ReachableSys s) :
    (s.wpc i = WriterPC.locked → s.reading = 0) ∧
    (LockStep s t → t.wpc i = WriterPC.locked → s.wpc i ≠ WriterPC.locked →
      s.reading = 0) ∧
    (LockStep s t → s.condOwner = CondOwner.writer i → t.reading ≤ s.reading) := by
  obtain ⟨I1, I2, I3, I4⟩ := reachable_inv hs
  refine ⟨fun hl => I2 i (Or.inr hl), ?_, ?_⟩
  · intro hst ht hsno
    obtain ⟨hp, _⟩ := step_into_locked hst ht hsno
    exact I2 i (Or.inl hp)
  · intro hst hown
    by_cases hlt : s.reading < t.reading
    · have hro := step_reading_increase hst hlt
      rw [hown] at hro
      exact absurd hro (fun hh => CondOwner.noConfusion hh)
    · omega

/-- C1 instantiated at the initial state of a one-writer system. -/
theorem lock_writer_reader_exclusion_witness :
    ((initSys 1).wpc 0 = WriterPC.locked → (initSys 1).reading = 0) ∧
    (LockStep (initSys 1) (initSys 1) → (initSys 1).wpc 0 = WriterPC.locked →
      (initSys 1).wpc 0 ≠ WriterPC.locked → (initSys 1).reading = 0) ∧
    (LockStep (initSys 1) (initSys 1) →
      (initSys 1).condOwner = CondOwner.writer 0 →
      (initSys 1).reading ≤ (initSys 1).reading) :=
  lock_writer_reader_exclusion (initSys 1) (initSys 1) 0 ReachableSys.init

/-! ### The C2 trace: a pending writer does not block new readers -/

/-- A reader's `acquire_read` takes the condition lock in the initial
one-writer system. -/
def c2s1 : LockSys 1 := { initSys 1 with condOwner := CondOwner.readerAcq }

/-- The reader increments the count to 1 and releases. -/
def c2s2 : LockSys 1 :=
  { c2s1 with reading := c2s1.reading + 1, condOwner := CondOwner.free }

/-- The writer's `acquire_write` takes the condition lock (the gate). -/
def c2s3 : LockSys 1 :=
  { c2s2 with
    condOwner := CondOwner.writer 0
    wpc := Function.update c2s2.wpc 0 WriterPC.entered }

/-- `wait_for` sees `reading == 1` and `cond.wait()` releases the gate: the
writer is pending but holds nothing. -/
def c2s4 : LockSys 1 :=
  { c2s3 with
    condOwner := CondOwner.free
    wpc := Function.update c2s3.wpc 0 WriterPC.waiting }

/-- A brand-new reader's `acquire_read` takes the gate while the writer is
still pending. -/
def c2s5 : LockSys 1 := { c2s4 with condOwner := CondOwner.readerAcq }

/-- The new reader increments the count to 2 under the pending writer. -/
def c2s6 : LockSys 1 :=
  { c2s5 with reading := c2s5.reading + 1, condOwner := CondOwner.free }

/-- The writer-holding state `c2s3` is reachable. -/
theorem c2s3_reachable : ReachableSys c2s3 :=
  ReachableSys.step
    (ReachableSys.step
      (ReachableSys.step ReachableSys.init (LockStep.rAcqStart rfl))
      (LockStep.rAcqEnd rfl))
    (LockStep.wAcq 0 rfl rfl)

/-- The pending-writer state `c2s4` is reachable. -/
theorem c2s4_reachable : ReachableSys c2s4 :=
  ReachableSys.step c2s3_reachable (LockStep.wCheckFail 0 rfl (by decide) (by decide))

/-- **C2 counterexample.** The claim says the writer keeps the gate held
continuously from before it starts waiting for the reader count to drain
until `releaseWrite`, and that consequently a pending writer blocks new
readers from starting.  In the code, `cond.wait()` inside
`wait_for` *releases* the condition lock while waiting: in the reachable
state `c2s4` the single writer is pending in `acquire_write` (`waiting`) yet
the gate is free, and two further steps let a brand-new reader acquire the
gate and increment the reader count from 1 to 2 under the pending writer. -/
theorem pending_writer_gate_released :
    ReachableSys c2s4 ∧
    c2s4.wpc 0 = WriterPC.waiting ∧
    c2s4.condOwner ≠ CondOwner.writer 0 ∧
    c2s4.condOwner = CondOwner.free ∧
    LockStep c2s4 c2s5 ∧ LockStep c2s5 c2s6 ∧
    c2s6.reading = c2s4.reading + 1 :=
  ⟨c2s4_reachable, by decide, by decide, by decide,
    LockStep.rAcqStart rfl, LockStep.rAcqEnd rfl, by decide⟩

/-- **C2 amended.** `acquire_write` takes a gate (the condition lock) that,
*while held*, prevents any new `acquire_read` or `acquire_write` from
proceeding (no step increases the reader count, hands the gate to a reader,
or hands it to another writer), and the gate is held by the writer during
the whole writer-held (`locked`) period up to `release_write`.  However,
while the writer waits for the reader count to drain (`waiting`), it does
*not* hold the gate — `cond.wait()` released it — so new readers may start;
readers already in progress are allowed to finish. -/
theorem write_gate_exclusion {n : Nat} (s t : LockSys n) (i : Fin n)
    (hs : ReachableSys s) :
    (s.condOwner = CondOwner.writer i → LockStep s t →
      t.reading ≤ s.reading ∧ t.condOwner ≠ CondOwner.readerAcq ∧
        ∀ j : Fin n, j ≠ i → t.condOwner ≠ CondOwner.writer j) ∧
    (s.wpc i = WriterPC.locked → s.condOwner = CondOwner.writer i) ∧
    (s.wpc i = WriterPC.waiting → s.condOwner ≠ CondOwner.writer i) := by
  obtain ⟨I1, I2, I3, I4⟩ := reachable_inv hs
  refine ⟨?_, ?_, ?_⟩
  · intro hown hst
    refine ⟨?_, ?_, ?_⟩
    · by_cases hlt : s.reading < t.reading
      · have hro := step_reading_increase hst hlt
        rw [hown] at hro
        exact absurd hro (fun hh => CondOwner.noConfusion hh)
      · omega
    · rcases step_owner_cases hst i hown with ho | ho <;> rw [ho] <;>
        exact fun hh => CondOwner.noConfusion hh
    · intro j hji
      rcases step_owner_cases hst i hown with ho | ho <;> rw [ho]
      · intro hh
        exact hji (((CondOwner.writer.injEq (n := n) i j).mp hh)).symm
      · exact fun hh => CondOwner.noConfusion hh
  · intro hl
    exact (I1 i).mpr (Or.inr (Or.inr hl))
  · intro hwt hc
    rcases (I1 i).mp hc with hh | hh | hh <;> rw [hwt] at hh <;>
      exact WriterPC.noConfusion hh

/-- C2's amended statement instantiated at the reachable writer-holding
state `c2s3` with the `wait` step into `c2s4`. -/
theorem write_gate_exclusion_witness :
    (c2s3.condOwner = CondOwner.writer 0 → LockStep c2s3 c2s4 →
      c2s4.reading ≤ c2s3.reading ∧ c2s4.condOwner ≠ CondOwner.readerAcq ∧
        ∀ j : Fin 1, j ≠ 0 → c2s4.condOwner ≠ CondOwner.writer j) ∧
    (c2s3.wpc 0 = WriterPC.locked → c2s3.condOwner = CondOwner.writer 0) ∧
    (c2s3.wpc 0 = WriterPC.waiting → c2s3.condOwner ≠ CondOwner.writer 0) :=
  write_gate_exclusion c2s3 c2s4 0 c2s3_reachable

/-- **C7.** In the two-writer system (writer 0 = `start`/the running server
process, writer 1 = a world import; readers = world exports): whenever the
child process is live, writer 0 holds write mode — `start` acquired it
before spawning and `_clean_up_after_stop` releases it only after the exit
is observed — so the reader count is zero, no step can increase it or begin
a new read acquisition, and the import writer's program counter cannot move.
Conversely, while an export holds the lock (reader count nonzero) or
the import writer holds the gate or write mode, writer 0 is not in write mode
and no single step can bring it there — `start` cannot proceed. -/
theorem start_holds_write_lock (s t : LockSys 2) (hs : ReachableSys s) :
    (s.live = true →
      s.wpc 0 = WriterPC.locked ∧ s.condOwner = CondOwner.writer 0 ∧
      s.reading = 0 ∧
      (LockStep s t → t.reading ≤ s.reading ∧ t.wpc 1 = s.wpc 1 ∧
        t.condOwner ≠ CondOwner.readerAcq)) ∧
    ((s.reading ≠ 0 ∨ s.condOwner = CondOwner.writer 1 ∨
        s.wpc 1 = WriterPC.locked) →
      s.wpc 0 ≠ WriterPC.locked ∧
      (LockStep s t → t.wpc 0 ≠ WriterPC.locked)) := by
  obtain ⟨I1, I2, I3, I4⟩ := reachable_inv hs
  have h10 : (1 : Fin 2) ≠ 0 := by decide
  have hblock : (s.reading ≠ 0 ∨ s.condOwner = CondOwner.writer 1 ∨
      s.wpc 1 = WriterPC.locked) →
      ¬(s.wpc 0 = WriterPC.passed ∨ s.wpc 0 = WriterPC.locked) := by
    intro hb hp
    have hown0 : s.condOwner = CondOwner.writer 0 :=
      (I1 0).mpr (hp.elim (fun hh => Or.inr (Or.inl hh)) (fun hh => Or.inr (Or.inr hh)))
    rcases hb with hb | hb | hb
    · exact hb (I2 0 hp)
    · rw [hown0] at hb
      exact h10 ((CondOwner.writer.injEq (n := 2) 0 1).mp hb).symm
    · have hown1 : s.condOwner = CondOwner.writer 1 :=
        (I1 1).mpr (Or.inr (Or.inr hb))
      rw [hown0] at hown1
      exact h10 ((CondOwner.writer.injEq (n := 2) 0 1).mp hown1).symm
  constructor
  · intro hl
    obtain ⟨h0, hp0⟩ := I4 hl
    have hp0' : s.wpc 0 = WriterPC.locked := hp0
    have hown : s.condOwner = CondOwner.writer 0 :=
      (I1 0).mpr (Or.inr (Or.inr hp0'))
    refine ⟨hp0', hown, I2 0 (Or.inr hp0'), ?_⟩
    intro hst
    refine ⟨?_, ?_, ?_⟩
    · by_cases hlt : s.reading < t.reading
      · have hro := step_reading_increase hst hlt
        rw [hown] at hro
        exact absurd hro (fun hh => CondOwner.noConfusion hh)
      · omega
    · exact step_wpc_other hst 0 1 hown h10
    · rcases step_owner_cases hst 0 hown with hogs | hogs <;> rw [hogs] <;>
        exact fun hh => CondOwner.noConfusion hh
  · intro hb
    have hnp := hblock hb
    refine ⟨fun hh => hnp (Or.inr hh), ?_⟩
    intro hst ht
    by_cases h0l : s.wpc 0 = WriterPC.locked
    · exact hnp (Or.inr h0l)
    · obtain ⟨hp, _⟩ := step_into_locked hst ht h0l
      exact hnp (Or.inl hp)

/-! ### Dispatch lemmas -/

/-- Running `trigger_log_events`'s loop from cursor `i` when no matching
callback from there on removes registrations: the registration list never
changes, the suppress flag ORs in the returns of the matching events from
`i` on, the fired ids extend by the matching ids in order, and, when no
callback records, `mm` is untouched. -/
theorem triggerFrom_pure (msg : String) :
    ∀ (k i : Nat) (st : DispState), st.evs.length - i = k →
      (∀ e ∈ st.evs, e.pat msg = true → e.removes = []) →
      (triggerFrom msg i st).evs = st.evs ∧
      (triggerFrom msg i st).suppress =
        (st.suppress ||
          ((st.evs.drop i).filter (fun e => e.pat msg)).any (fun e => e.ret)) ∧
      (triggerFrom msg i st).fired =
        st.fired ++ ((st.evs.drop i).filter (fun e => e.pat msg)).map (fun e => e.id) ∧
      ((∀ e ∈ st.evs, e.record = false) →
        (triggerFrom msg i st).recorded = st.recorded) := by
  intro k
  induction k with
  | zero =>
    intro i st hk hpure
    have hge : st.evs.length ≤ i := by omega
    rw [triggerFrom, dif_neg (by omega)]
    rw [List.drop_eq_nil_of_le hge]
    simp
  | succ k ih =>
    intro i st hk hpure
    have hlt : i < st.evs.length := by omega
    have hmem : st.evs.get ⟨i, hlt⟩ ∈ st.evs := List.get_mem st.evs i hlt
    have hdrop : st.evs.drop i = st.evs.get ⟨i, hlt⟩ :: st.evs.drop (i + 1) := by
      rw [List.get_eq_getElem]
      exact List.drop_eq_getElem_cons hlt
    rw [triggerFrom, dif_pos hlt]
    dsimp only
    by_cases hp : (st.evs.get ⟨i, hlt⟩).pat msg = true
    · rw [if_pos hp, hpure _ hmem hp]
      have hrem : runRemovals st.evs [] = st.evs := rfl
      rw [hrem]
      obtain ⟨ih1, ih2, ih3, ih4⟩ := ih (i + 1)
        { evs := st.evs
          suppress := st.suppress || (st.evs.get ⟨i, hlt⟩).ret
          recorded := if (st.evs.get ⟨i, hlt⟩).record then some msg else st.recorded
          fired := st.fired ++ [(st.evs.get ⟨i, hlt⟩).id] }
        (by dsimp only; omega) (by dsimp only; exact hpure)
      refine ⟨ih1, ?_, ?_, ?_⟩
      · rw [ih2]
        dsimp only
        rw [hdrop]
        simp only [List.filter_cons, hp, if_true, List.any_cons, Bool.or_assoc]
      · rw [ih3]
        dsimp only
        rw [hdrop]
        simp only [List.filter_cons, hp, if_true, List.map_cons, List.append_assoc,
          List.singleton_append]
      · intro hnr
        rw [ih4 (by dsimp only; exact hnr)]
        dsimp only
        rw [hnr _ hmem]
        simp
    · rw [if_neg hp]
      have hp' : (st.evs.get ⟨i, hlt⟩).pat msg = false := by
        simpa using hp
      obtain ⟨ih1, ih2, ih3, ih4⟩ := ih (i + 1) st (by omega) hpure
      refine ⟨ih1, ?_, ?_, ih4⟩
      · rw [ih2, hdrop]
        simp only [List.filter_cons, hp', Bool.false_eq_true, if_false]
      · rw [ih3, hdrop]
        simp only [List.filter_cons, hp', Bool.false_eq_true, if_false]

/-- **C6 amended.** `trigger_log_events` evaluates every registered
(pattern, callback) pair in registration order; *provided no matching
callback unregisters registrations during the dispatch*, every matching
handler runs (their ids are fired in registration order), the registry is
unchanged, and the message is suppressed iff at least one matching callback
returned the suppress flag — a logical OR across all matches, not
short-circuited.  (When a matching callback does unregister an entry at or
before its own position — e.g. a one-shot removing itself — CPython's
index-based list iteration shifts the following entries one slot left and
the next registered handler is skipped for that message, as the
counterexample shows; this is the only amendment.) -/
theorem dispatch_or_semantics (msg : String) (evs : List LogEvent)
    (hpure : ∀ e ∈ evs, e.pat msg = true → e.removes = []) :
    (triggerLogEvents msg evs).suppress = specSuppressed msg evs ∧
    (triggerLogEvents msg evs).fired = specMatchingIds msg evs ∧
    (triggerLogEvents msg evs).evs = evs := by
  obtain ⟨h1, h2, h3, _⟩ := triggerFrom_pure msg evs.length 0
    { evs := evs, suppress := false, recorded := none, fired := [] } (by simp) hpure
  refine ⟨?_, ?_, h1⟩
  · rw [triggerLogEvents, h2]
    dsimp only
    rw [List.drop_zero, Bool.false_or, List.any_filter, specSuppressed]
  · rw [triggerLogEvents, h3]
    dsimp only
    rw [List.drop_zero, List.nil_append, specMatchingIds]

/-- A registration that matches everything and removes itself when invoked —
the shape of `send_command_and_wait`'s one-shot. -/
def c6e1 : LogEvent :=
  { id := 1, pat := fun _ => true, removes := [1], ret := false, record := false }

/-- A registration after it that also matches everything and asks for
suppression. -/
def c6e2 : LogEvent :=
  { id := 2, pat := fun _ => true, removes := [], ret := true, record := false }

/-- **C6 counterexample.** The claim says every matching handler always
runs — including when a matching callback unregisters itself — and that the
suppress flags are ORed over *all* matches.  With registry `[c6e1, c6e2]`,
both matching the message: `c6e1` runs and removes itself, the CPython list
iterator's cursor (now 1) is already past the shifted `c6e2`, so `c6e2`
never runs (`fired = [1]`) and its suppress request is lost (result
`false`), while the specification's OR over all matches is `true` and its
matching-handler list is `[1, 2]`. -/
theorem dispatch_skips_after_self_removal :
    (triggerLogEvents "m" [c6e1, c6e2]).suppress = false ∧
    (triggerLogEvents "m" [c6e1, c6e2]).fired = [1] ∧
    (triggerLogEvents "m" [c6e1, c6e2]).evs = [c6e2] ∧
    specSuppressed "m" [c6e1, c6e2] = true ∧
    specMatchingIds "m" [c6e1, c6e2] = [1, 2] := by
  have h2 : triggerFrom "m" 1
      { evs := [c6e2], suppress := false, recorded := none, fired := [1] } =
      { evs := [c6e2], suppress := false, recorded := none, fired := [1] } := by
    rw [triggerFrom, dif_neg (by simp)]
  have h1 : triggerLogEvents "m" [c6e1, c6e2] =
      { evs := [c6e2], suppress := false, recorded := none, fired := [1] } := by
    rw [triggerLogEvents, triggerFrom, dif_pos (by simp)]
    dsimp only [List.get, c6e1, c6e2]
    rw [if_pos rfl]
    exact h2
  rw [h1]
  refine ⟨rfl, rfl, rfl, by simp [specSuppressed, c6e1, c6e2], by
    simp [specMatchingIds, c6e1, c6e2]⟩

/-- C7 instantiated at the initial state of the two-writer system. -/
theorem start_holds_write_lock_witness :
    ((initSys 2).live = true →
      (initSys 2).wpc 0 = WriterPC.locked ∧
      (initSys 2).condOwner = CondOwner.writer 0 ∧
      (initSys 2).reading = 0 ∧
      (LockStep (initSys 2) (initSys 2) →
        (initSys 2).reading ≤ (initSys 2).reading ∧
        (initSys 2).wpc 1 = (initSys 2).wpc 1 ∧
        (initSys 2).condOwner ≠ CondOwner.readerAcq)) ∧
    (((initSys 2).reading ≠ 0 ∨ (initSys 2).condOwner = CondOwner.writer 1 ∨
        (initSys 2).wpc 1 = WriterPC.locked) →
      (initSys 2).wpc 0 ≠ WriterPC.locked ∧
      (LockStep (initSys 2) (initSys 2) → (initSys 2).wpc 0 ≠ WriterPC.locked)) :=
  start_holds_write_lock (initSys 2) (initSys 2) ReachableSys.init

/-- Running the dispatch loop over `P ++ [oneshot]` from cursor `i ≤ |P|`,
when the earlier registrations in `P` remove nothing, record nothing and do
not share the one-shot's identity: if the message matches the one-shot's
pattern, the one-shot fires, removes exactly itself and records the message;
otherwise registry and `mm` are untouched. -/
theorem triggerFrom_oneshot (msg : String) (pat : String → Bool) (sup : Bool)
    (oid : Nat) (P : List LogEvent)
    (hP : ∀ e ∈ P, e.removes = [] ∧ e.record = false ∧ e.id ≠ oid) :
    ∀ (k i : Nat) (st : DispState), st.evs = P ++ [oneShotEvent pat sup oid] →
      i ≤ P.length → P.length - i = k →
      (pat msg = true →
        (triggerFrom msg i st).evs = P ∧ (triggerFrom msg i st).recorded = some msg) ∧
      (pat msg = false →
        (triggerFrom msg i st).evs = st.evs ∧
        (triggerFrom msg i st).recorded = st.recorded) := by
  intro k
  induction k with
  | zero =>
    intro i st hevs hile hk
    have hieq : i = P.length := by omega
    have hlen : st.evs.length = P.length + 1 := by rw [hevs]; simp
    have hlt : i < st.evs.length := by omega
    have he : st.evs.get ⟨i, hlt⟩ = oneShotEvent pat sup oid := by
      rw [List.get_eq_getElem]
      simp only [hevs]
      exact List.getElem_concat_length P _ i hieq _
    rw [triggerFrom, dif_pos hlt]
    dsimp only
    rw [he]
    have hrm : runRemovals st.evs (oneShotEvent pat sup oid).removes = P := by
      show List.eraseP (fun e => e.id = oid) st.evs = P
      rw [hevs]
      rw [List.eraseP_append_right _ (by
        intro b hb
        simpa using (hP b hb).2.2)]
      simp [List.eraseP, oneShotEvent]
    by_cases hpm : pat msg = true
    · rw [if_pos (show (oneShotEvent pat sup oid).pat msg = true from hpm)]
      rw [hrm]
      rw [triggerFrom, dif_neg (by dsimp only; omega)]
      refine ⟨fun _ => ⟨rfl, ?_⟩, fun hpf => by rw [hpm] at hpf; exact Bool.noConfusion hpf⟩
      show (if (oneShotEvent pat sup oid).record = true then some msg else st.recorded)
          = some msg
      rfl
    · rw [if_neg (by
        show ¬ (oneShotEvent pat sup oid).pat msg = true
        simpa using hpm)]
      rw [triggerFrom, dif_neg (by omega)]
      exact ⟨fun hpt => absurd hpt hpm, fun _ => ⟨rfl, rfl⟩⟩
  | succ k ih =>
    intro i st hevs hile hk
    have hiP : i < P.length := by omega
    have hlen : st.evs.length = P.length + 1 := by rw [hevs]; simp
    have hlt : i < st.evs.length := by omega
    have hgetP : st.evs.get ⟨i, hlt⟩ = P.get ⟨i, hiP⟩ := by
      rw [List.get_eq_getElem, List.get_eq_getElem]
      simp only [hevs]
      exact List.getElem_append_left hiP
    have hmemP : P.get ⟨i, hiP⟩ ∈ P := List.get_mem P i hiP
    obtain ⟨hr0, hrec0, _⟩ := hP _ hmemP
    rw [triggerFrom, dif_pos hlt]
    dsimp only
    rw [hgetP]
    by_cases hpe : (P.get ⟨i, hiP⟩).pat msg = true
    · rw [if_pos hpe, hr0, hrec0]
      have hid : runRemovals st.evs [] = st.evs := rfl
      rw [hid]
      have hif : (if false = true then some msg else st.recorded) = st.recorded := by
        simp
      rw [hif]
      obtain ⟨ihT, ihF⟩ := ih (i + 1)
        { evs := st.evs
          suppress := st.suppress || (P.get ⟨i, hiP⟩).ret
          recorded := st.recorded
          fired := st.fired ++ [(P.get ⟨i, hiP⟩).id] }
        (by dsimp only; exact hevs) (by omega) (by omega)
      exact ⟨ihT, fun hpf => ihF hpf⟩
    · rw [if_neg hpe]
      exact ih (i + 1) st hevs (by omega) (by omega)

/-- After the one-shot fired and removed itself, dispatching further
messages over the remaining (pure, non-recording) registrations leaves the
registry alone and records nothing, so `mm` keeps its value. -/
theorem relay_after_fire (m : String) (others : List LogEvent)
    (hothers : ∀ e ∈ others, e.removes = [] ∧ e.record = false) :
    ∀ msgs : List String, (msgs.foldl relayOne (others, some m)).2 = some m := by
  intro msgs
  induction msgs with
  | nil => rfl
  | cons msg rest ih =>
    rw [List.foldl_cons]
    obtain ⟨h1, _, _, h4⟩ := triggerFrom_pure msg others.length 0
      { evs := others, suppress := false, recorded := none, fired := [] }
      (by simp) (fun e he _ => (hothers e he).1)
    have hstep : relayOne (others, some m) msg = (others, some m) := by
      show ((triggerFrom msg 0
          { evs := others, suppress := false, recorded := none, fired := [] }).evs,
        match (triggerFrom msg 0
          { evs := others, suppress := false, recorded := none, fired := [] }).recorded with
          | some x => some x
          | none => some m) = (others, some m)
      rw [h1, h4 (fun e he => (hothers e he).2)]
    rw [hstep]
    exact ih

/-- **C5.** `send_command_and_wait(line, pattern)` registers its one-shot
response handler *before* sending `line`; over any stream of log messages
dispatched after the send, it returns the first message matching `pattern` —
not an earlier one (earlier messages were dispatched before the handler
existed and are not in `msgs`) and not a later one (the handler removed
itself on first fire) — even when the other registered handlers match
unrelated patterns of the same messages.  `none` means no message matched
and the caller is still blocked. -/
theorem send_command_first_response (others : List LogEvent)
    (pat : String → Bool) (sup : Bool) (oid : Nat) (msgs : List String)
    (hothers : ∀ e ∈ others, e.removes = [] ∧ e.record = false ∧ e.id ≠ oid) :
    sendCommandAndWait others pat sup oid msgs = msgs.find? pat := by
  show (msgs.foldl relayOne
    (others ++ [oneShotEvent pat sup oid], (none : Option String))).2 = msgs.find? pat
  induction msgs with
  | nil => rfl
  | cons msg rest ih =>
    rw [List.foldl_cons]
    obtain ⟨hT, hF⟩ := triggerFrom_oneshot msg pat sup oid others hothers
      others.length 0
      { evs := others ++ [oneShotEvent pat sup oid], suppress := false,
        recorded := none, fired := [] }
      rfl (by omega) (by omega)
    by_cases hpm : pat msg = true
    · obtain ⟨hevs', hrec'⟩ := hT hpm
      have hstep : relayOne
          (others ++ [oneShotEvent pat sup oid], (none : Option String)) msg =
          (others, some msg) := by
        show ((triggerFrom msg 0
            { evs := others ++ [oneShotEvent pat sup oid], suppress := false,
              recorded := none, fired := [] }).evs,
          match (triggerFrom msg 0
            { evs := others ++ [oneShotEvent pat sup oid], suppress := false,
              recorded := none, fired := [] }).recorded with
            | some x => some x
            | none => (none : Option String)) = (others, some msg)
        rw [hevs', hrec']
      rw [hstep, List.find?_cons_of_pos _ hpm]
      exact relay_after_fire msg others
        (fun e he => ⟨(hothers e he).1, (hothers e he).2.1⟩) rest
    · obtain ⟨hevs', hrec'⟩ := hF (by simpa using hpm)
      have hstep : relayOne
          (others ++ [oneShotEvent pat sup oid], (none : Option String)) msg =
          (others ++ [oneShotEvent pat sup oid], (none : Option String)) := by
        show ((triggerFrom msg 0
            { evs := others ++ [oneShotEvent pat sup oid], suppress := false,
              recorded := none, fired := [] }).evs,
          match (triggerFrom msg 0
            { evs := others ++ [oneShotEvent pat sup oid], suppress := false,
              recorded := none, fired := [] }).recorded with
            | some x => some x
            | none => (none : Option String)) =
          (others ++ [oneShotEvent pat sup oid], (none : Option String))
        rw [hevs', hrec']
      rw [hstep, List.find?_cons_of_neg _ (by simpa using hpm)]
      exact ih

/-- A concrete C5 run: one unrelated always-matching handler is registered;
the command's response pattern matches `pong`; the dispatched stream is
`status`, `pong`, `pong` — the returned match is the first `pong`. -/
theorem send_command_first_response_witness :
    sendCommandAndWait [c6e2] (fun m => m = "pong") true 7
      ["status", "pong", "pong"] = some "pong" := by
  have h := send_command_first_response [c6e2] (fun m => m = "pong") true 7
    ["status", "pong", "pong"] (by simp [c6e2])
  rw [h]
  rfl

/-- C6's amended statement at a concrete registry: one always-matching,
non-removing handler asking for suppression. -/
theorem dispatch_or_semantics_witness :
    (triggerLogEvents "m" [c6e2]).suppress = specSuppressed "m" [c6e2] ∧
    (triggerLogEvents "m" [c6e2]).fired = specMatchingIds "m" [c6e2] ∧
    (triggerLogEvents "m" [c6e2]).evs = [c6e2] :=
  dispatch_or_semantics "m" [c6e2] (by simp [c6e2])

/-! ### List-level lemmas for the `world_extract` trace (C9) -/

theorem splitOnCharList_ne_nil (c : Char) (l : List Char) : splitOnCharList c l ≠ [] := by
  cases l with
  | nil => simp [splitOnCharList]
  | cons x xs =>
    rw [splitOnCharList]
    cases h : splitOnCharList c xs with
    | nil => simp
    | cons y ys => by_cases hx : x = c <;> simp [hx]

/-- Splitting a separator-free string gives a single segment. -/
theorem splitOnCharList_not_mem (c : Char) (l : List Char) (h : c ∉ l) :
    splitOnCharList c l = [l] := by
  induction l with
  | nil => rfl
  | cons x xs ih =>
    have hx : ¬ x = c := fun hh => h (by rw [hh]; exact List.mem_cons_self c xs)
    have hxs : c ∉ xs := fun hh => h (List.mem_cons_of_mem x hh)
    rw [splitOnCharList, ih hxs]
    simp [hx]

/-- Splitting distributes over a separator occurrence. -/
theorem splitOnCharList_sep (c : Char) (A B : List Char) :
    splitOnCharList c (A ++ c :: B) = splitOnCharList c A ++ splitOnCharList c B := by
  induction A with
  | nil =>
    rw [List.nil_append, splitOnCharList]
    cases h : splitOnCharList c B with
    | nil => exact absurd h (splitOnCharList_ne_nil c B)
    | cons y ys => rw [splitOnCharList, h]; simp
  | cons x xs ih =>
    rw [List.cons_append, splitOnCharList, ih]
    cases h : splitOnCharList c xs with
    | nil => exact absurd h (splitOnCharList_ne_nil c xs)
    | cons y ys =>
      rw [splitOnCharList, h]
      rw [List.cons_append]
      by_cases hx : x = c <;> simp [hx]

/-- Pushing clean segments through the resolver just appends them. -/
theorem foldl_resolveStep_clean :
    ∀ (T : List (List Char)) (acc : List (List Char)),
      (∀ t ∈ T, cleanSeg t = true) → T.foldl resolveStep acc = acc ++ T := by
  intro T
  induction T with
  | nil => intro acc _; simp
  | cons t ts ih =>
    intro acc hc
    rw [List.foldl_cons]
    have hct : cleanSeg t = true := hc t (List.mem_cons_self t ts)
    have hstep : resolveStep acc t = acc ++ [t] := by
      rw [resolveStep]
      have h1 : ¬(t = [] ∨ t = ['.']) := by
        intro hor
        rcases hor with h | h <;> (rw [h] at hct; exact absurd hct (by decide))
      rw [if_neg h1, if_neg (by
        intro ht
        rw [ht] at hct
        exact absurd hct (by decide))]
    rw [hstep, ih (acc ++ [t]) (fun u hu => hc u (List.mem_cons_of_mem t hu)),
      List.append_assoc]
    rfl

/-- Any list containing a separator splits around its last occurrence. -/
theorem exists_last_sep (X : List Char) (h : '/' ∈ X) :
    ∃ Y Z, X = Y ++ '/' :: Z ∧ '/' ∉ Z := by
  induction X with
  | nil => cases h
  | cons x xs ih =>
    by_cases hxs : '/' ∈ xs
    · obtain ⟨Y, Z, hyz, hz⟩ := ih hxs
      exact ⟨x :: Y, Z, by rw [hyz]; rfl, hz⟩
    · have hx : x = '/' := by
        rcases List.mem_cons.mp h with hh | hh
        · exact hh.symm
        · exact absurd hh hxs
      exact ⟨[], xs, by simp [hx], hxs⟩

theorem findIdxOfChar_append (c : Char) :
    ∀ (l1 l2 : List Char), c ∉ l1 →
      findIdxOfChar c (l1 ++ c :: l2) = some l1.length := by
  intro l1
  induction l1 with
  | nil => intro l2 _; simp [findIdxOfChar]
  | cons a l ih =>
    intro l2 h
    have ha : ¬ a = c := fun hh => h (by rw [hh]; exact List.mem_cons_self c l)
    rw [List.cons_append, findIdxOfChar, if_neg ha,
      ih l2 (fun hm => h (List.mem_cons_of_mem a hm))]
    rfl

/-- Two lists that agree on a prefix `R` but differ right after cannot be in
the prefix relation. -/
theorem not_prefix_mid {α : Type} (R : List α) (x y : α) (T1 T2 : List α)
    (hxy : x ≠ y) : ¬ (R ++ x :: T1 <+: R ++ y :: T2) := by
  intro hpre
  obtain ⟨t, ht⟩ := hpre
  rw [List.append_assoc] at ht
  have h2 := List.append_cancel_left ht
  rw [List.cons_append] at h2
  exact hxy (List.cons.injEq x (T1 ++ t) y T2 ▸ h2).1

theorem take_one_slash_mem {l : List Char} (h : l.take 1 = ['/']) : '/' ∈ l := by
  cases l with
  | nil => simp at h
  | cons x xs =>
    have hx : x = '/' := by simpa using h
    rw [hx]
    exact List.mem_cons_self '/' xs

theorem data_nil_eq_empty (s : String) (h : s.data = []) : s = "" := by
  cases s with
  | mk d =>
    rw [show d = [] from h]

/-- `join(a, b)` for a relative `b` and an `a` that is neither empty nor
slash-terminated is concatenation with one separator. -/
theorem pyJoin_data (a b : String) (ha : a.data ≠ [])
    (ha2 : a.data.getLast? ≠ some '/') (hb : ¬ b.data.take 1 = ['/']) :
    (pyJoin a b).data = a.data ++ '/' :: b.data := by
  rw [pyJoin, if_neg hb, if_neg (by
    intro hor
    rcases hor with h | h
    · exact ha (by rw [h])
    · exact ha2 h)]
  show ((a ++ "/") ++ b).data = a.data ++ '/' :: b.data
  rw [String.data_append, String.data_append]
  simp

/-- The last character of a join with nonempty relative `b` is `b`'s last. -/
theorem pyJoin_getLast (a b : String) (hb : b.data ≠ []) :
    (pyJoin a b).data.getLast? = b.data.getLast? := by
  rw [pyJoin]
  by_cases h1 : b.data.take 1 = ['/']
  · rw [if_pos h1]
  · rw [if_neg h1]
    by_cases h2 : a = "" ∨ a.data.getLast? = some '/'
    · rw [if_pos h2, String.data_append]
      exact List.getLast?_append_of_ne_nil a.data hb
    · rw [if_neg h2, String.data_append, String.data_append]
      exact List.getLast?_append_of_ne_nil _ hb

/-- Resolving a path extended with a separator and one clean slash-free
segment appends that segment. -/
theorem resolve_concat_seg (A X : List Char) (hX : '/' ∉ X)
    (hXc : cleanSeg X = true) :
    (splitOnCharList '/' (A ++ '/' :: X)).foldl resolveStep [] =
      (splitOnCharList '/' A).foldl resolveStep [] ++ [X] := by
  rw [splitOnCharList_sep, List.foldl_append, splitOnCharList_not_mem '/' X hX]
  exact foldl_resolveStep_clean [X] _ (fun t ht => by
    rw [List.mem_singleton.mp ht]
    exact hXc)

/-- A trailing separator does not change the resolution. -/
theorem resolve_trailing_sep (A : List Char) :
    (splitOnCharList '/' (A ++ ['/'])).foldl resolveStep [] =
      (splitOnCharList '/' A).foldl resolveStep [] := by
  rw [show A ++ ['/'] = A ++ '/' :: ([] : List Char) from rfl,
    splitOnCharList_sep, List.foldl_append]
  rfl

/-- A string ending in `'/'` decomposes as its front plus that slash. -/
theorem data_decomp_last_slash (a : String) (h : a.data.getLast? = some '/') :
    ∃ D, a.data = D ++ ['/'] := by
  have hane : a.data ≠ [] := by
    intro hnil
    rw [hnil] at h
    exact Option.noConfusion h
  refine ⟨a.data.dropLast, ?_⟩
  have hg : a.data.getLast hane = '/' := by
    have h1 := List.getLast?_eq_getLast a.data hane
    rw [h1] at h
    exact Option.some.inj h
  conv_lhs => rw [← List.dropLast_append_getLast hane]
  rw [hg]

/-- Resolving `join(a, x)` for one clean slash-free segment `x` appends that
segment to `a`'s resolution. -/
theorem resolveSegs_join_seg (a x : String) (hx0 : x.data ≠ [])
    (hxs : '/' ∉ x.data) (hxc : cleanSeg x.data = true) :
    resolveSegs (pyJoin a x) = resolveSegs a ++ [x.data] := by
  have hxa : ¬ x.data.take 1 = ['/'] := fun hh => hxs (take_one_slash_mem hh)
  rw [pyJoin, if_neg hxa]
  by_cases h2 : a = "" ∨ a.data.getLast? = some '/'
  · rw [if_pos h2]
    rcases h2 with h | h
    · rw [h]
      have hd : ("" ++ x).data = x.data := by
        rw [String.data_append]
        rfl
      rw [resolveSegs, resolveSegs, hd,
        show ("" : String).data = [] from rfl,
        splitOnCharList_not_mem '/' x.data hxs]
      rw [foldl_resolveStep_clean [x.data] [] (fun t ht => by
        rw [List.mem_singleton.mp ht]
        exact hxc)]
      rfl
    · obtain ⟨D, hD⟩ := data_decomp_last_slash a h
      rw [resolveSegs, resolveSegs, String.data_append, hD]
      rw [show (D ++ ['/']) ++ x.data = D ++ '/' :: x.data by simp]
      rw [resolve_concat_seg D x.data hxs hxc, resolve_trailing_sep D]
  · rw [if_neg h2]
    have ha : a.data ≠ [] := fun hnil => h2 (Or.inl (data_nil_eq_empty a hnil))
    have hd : ((a ++ "/") ++ x).data = a.data ++ '/' :: x.data := by
      rw [String.data_append, String.data_append]
      simp
    rw [resolveSegs, resolveSegs, hd, resolve_concat_seg a.data x.data hxs hxc]

/-- `posixpath.dirname` of `A + '/' + X` where `X` has no separator and `A`
ends in a non-slash character: exactly `A` (the final slash run is one slash,
stripped together with the separator). -/
theorem pyDirname_concat (A : String) (X : List Char) (c : Char)
    (hlast : A.data.getLast? = some c) (hc : ¬ c = '/') (hX : '/' ∉ X) :
    pyDirname (String.mk (A.data ++ '/' :: X)) = A := by
  have hA : A.data ≠ [] := by
    intro h
    rw [h] at hlast
    exact Option.noConfusion hlast
  have hcmem : c ∈ A.data := by
    obtain ⟨hne, hceq⟩ := List.mem_getLast?_eq_getLast
      (show c ∈ A.data.getLast? from by rw [hlast]; rfl)
    rw [hceq]
    exact List.getLast_mem hne
  have hrev : (A.data ++ '/' :: X).reverse = X.reverse ++ '/' :: A.data.reverse := by
    simp
  have hfind : rfindChar '/' (A.data ++ '/' :: X) = some A.data.length := by
    rw [rfindChar, hrev,
      findIdxOfChar_append '/' X.reverse A.data.reverse (by simpa using hX)]
    simp
  rw [pyDirname]
  rw [show (String.mk (A.data ++ '/' :: X)).data = A.data ++ '/' :: X from rfl]
  rw [hfind]
  have htake : (A.data ++ '/' :: X).take (A.data.length + 1) = A.data ++ ['/'] := by
    rw [List.take_append_eq_append_take,
      List.take_of_length_le (by omega)]
    simp
  rw [htake]
  have hne2 : A.data ++ ['/'] ≠ [] := by simp
  have hnr : A.data ++ ['/'] ≠ List.replicate (A.data ++ ['/']).length '/' := by
    intro hr
    have hall := (List.eq_replicate_iff.mp hr).2
    exact hc (hall c (List.mem_append_left _ hcmem))
  rw [if_pos ⟨hne2, hnr⟩]
  have hstrip : rstripSlashList (A.data ++ ['/']) = A.data := by
    rw [rstripSlashList]
    rw [show (A.data ++ ['/']).reverse = '/' :: A.data.reverse by simp]
    rw [List.dropWhile_cons]
    rw [if_pos (by simp)]
    have hhead : A.data.reverse.head? = some c := by
      rw [List.head?_reverse]
      exact hlast
    cases hAr : A.data.reverse with
    | nil => rw [hAr] at hhead; exact Option.noConfusion hhead
    | cons a t =>
      have hac : a = c := by
        rw [hAr] at hhead
        exact Option.some.inj hhead
      rw [List.dropWhile_cons, if_neg (by rw [hac]; simpa using hc)]
      rw [← hAr, List.reverse_reverse]
  rw [hstrip]

/-- Cleanliness of a split transfers through a separator decomposition, and
forces the front part to be nonempty and not slash-terminated. -/
theorem clean_mid (Y Z : List Char)
    (h : ∀ t ∈ splitOnCharList '/' (Y ++ '/' :: Z), cleanSeg t = true) :
    Y ≠ [] ∧ Y.getLast? ≠ some '/' ∧
    (∀ t ∈ splitOnCharList '/' Y, cleanSeg t = true) ∧
    (∀ t ∈ splitOnCharList '/' Z, cleanSeg t = true) := by
  rw [splitOnCharList_sep] at h
  have hY : ∀ t ∈ splitOnCharList '/' Y, cleanSeg t = true :=
    fun t ht => h t (List.mem_append_left _ ht)
  have hZ : ∀ t ∈ splitOnCharList '/' Z, cleanSeg t = true :=
    fun t ht => h t (List.mem_append_right _ ht)
  refine ⟨?_, ?_, hY, hZ⟩
  · intro hnil
    have := hY [] (by rw [hnil]; exact List.mem_singleton.mpr rfl)
    exact absurd this (by decide)
  · intro hsl
    obtain ⟨D, hD⟩ := data_decomp_last_slash (String.mk Y) hsl
    have hmem : ([] : List Char) ∈ splitOnCharList '/' Y := by
      rw [show Y = (String.mk Y).data from rfl, hD,
        show D ++ ['/'] = D ++ '/' :: ([] : List Char) from rfl,
        splitOnCharList_sep]
      exact List.mem_append_right _ (List.mem_singleton.mpr rfl)
    exact absurd (hY [] hmem) (by decide)

theorem string_eq_mk_of_data (s : String) (d : List Char) (h : s.data = d) :
    s = String.mk d := by
  cases s with
  | mk e => rw [show e = d from h]

/-- The paths written by a confined member — the out path and its `dirname` —
both resolve to `wd`'s resolution followed by the `world_new` segment. -/
theorem out_resolution (wd tail : String)
    (htail : tail = "" ∨ cleanTail tail = true) :
    (∃ T, resolveSegs (pyJoin (pyJoin wd "world_new") tail) =
        resolveSegs wd ++ "world_new".data :: T) ∧
    (∃ T, resolveSegs (pyDirname (pyJoin (pyJoin wd "world_new") tail)) =
        resolveSegs wd ++ "world_new".data :: T) := by
  have hWres : resolveSegs (pyJoin wd "world_new") =
      resolveSegs wd ++ ["world_new".data] :=
    resolveSegs_join_seg wd "world_new" (by decide) (by decide) (by decide)
  have hWlast : (pyJoin wd "world_new").data.getLast? = some 'w' := by
    rw [pyJoin_getLast wd "world_new" (by decide)]
    decide
  have hWne : (pyJoin wd "world_new").data ≠ [] := by
    intro h
    rw [h] at hWlast
    exact Option.noConfusion hWlast
  have hWnsl : (pyJoin wd "world_new").data.getLast? ≠ some '/' := by
    rw [hWlast]
    decide
  rcases htail with h0 | hct
  · rw [h0]
    have hod : (pyJoin (pyJoin wd "world_new") "").data =
        (pyJoin wd "world_new").data ++ '/' :: ("" : String).data :=
      pyJoin_data (pyJoin wd "world_new") "" hWne hWnsl (by decide)
    constructor
    · refine ⟨[], ?_⟩
      rw [resolveSegs, hod, show ("" : String).data = [] from rfl,
        show (pyJoin wd "world_new").data ++ '/' :: ([] : List Char) =
          (pyJoin wd "world_new").data ++ ['/'] from rfl,
        resolve_trailing_sep,
        show (splitOnCharList '/' (pyJoin wd "world_new").data).foldl resolveStep [] =
          resolveSegs (pyJoin wd "world_new") from rfl, hWres]
    · refine ⟨[], ?_⟩
      have hdd : pyDirname (pyJoin (pyJoin wd "world_new") "") =
          pyJoin wd "world_new" := by
        rw [string_eq_mk_of_data (pyJoin (pyJoin wd "world_new") "") _ hod]
        exact pyDirname_concat (pyJoin wd "world_new") _ 'w' hWlast (by decide)
          (by decide)
      rw [hdd, hWres]
  · have hall : ∀ t ∈ splitOnCharList '/' tail.data, cleanSeg t = true := by
      rw [cleanTail, Bool.and_eq_true] at hct
      exact fun t ht => List.all_eq_true.mp hct.2 t ht
    have htne : tail.data ≠ [] := by
      intro hnil
      rw [cleanTail, data_nil_eq_empty tail hnil] at hct
      simp at hct
    have habs : ¬ tail.data.take 1 = ['/'] := by
      intro hh
      have hmem0 : ([] : List Char) ∈ splitOnCharList '/' tail.data := by
        cases htd : tail.data with
        | nil => exact absurd htd htne
        | cons x xs =>
          have hx : x = '/' := by
            rw [htd] at hh
            simpa using hh
          rw [splitOnCharList]
          cases hs : splitOnCharList '/' xs with
          | nil => exact absurd hs (splitOnCharList_ne_nil '/' xs)
          | cons y ys => simp [hx]
      exact absurd (hall [] hmem0) (by decide)
    have hod : (pyJoin (pyJoin wd "world_new") tail).data =
        (pyJoin wd "world_new").data ++ '/' :: tail.data :=
      pyJoin_data (pyJoin wd "world_new") tail hWne hWnsl habs
    constructor
    · refine ⟨splitOnCharList '/' tail.data, ?_⟩
      rw [resolveSegs, hod, splitOnCharList_sep, List.foldl_append,
        foldl_resolveStep_clean _ _ hall,
        show (splitOnCharList '/' (pyJoin wd "world_new").data).foldl resolveStep [] =
          resolveSegs (pyJoin wd "world_new") from rfl, hWres]
      simp
    · by_cases hsl : '/' ∈ tail.data
      · obtain ⟨Y, Z, hyz, hz⟩ := exists_last_sep tail.data hsl
        obtain ⟨hYne, hYlast, hYclean, _⟩ := clean_mid Y Z (by rw [← hyz]; exact hall)
        obtain ⟨c, hclast⟩ : ∃ c, Y.getLast? = some c := by
          cases hY : Y.getLast? with
          | none => exact absurd (List.getLast?_eq_none_iff.mp hY) hYne
          | some c => exact ⟨c, rfl⟩
        have hcne : ¬ c = '/' := fun hh => hYlast (by rw [← hh]; exact hclast)
        have hA2last :
            (String.mk ((pyJoin wd "world_new").data ++ '/' :: Y)).data.getLast? =
              some c := by
          show ((pyJoin wd "world_new").data ++ '/' :: Y).getLast? = some c
          rw [List.getLast?_append_of_ne_nil _ (by simp)]
          cases hYc : Y with
          | nil => exact absurd hYc hYne
          | cons y ys =>
            rw [List.getLast?_cons_cons, ← hYc, hclast]
        have hout : pyJoin (pyJoin wd "world_new") tail =
            String.mk
              ((String.mk ((pyJoin wd "world_new").data ++ '/' :: Y)).data ++ '/' :: Z) := by
          apply string_eq_mk_of_data
          rw [hod, hyz]
          show (pyJoin wd "world_new").data ++ '/' :: (Y ++ '/' :: Z) =
            ((pyJoin wd "world_new").data ++ '/' :: Y) ++ '/' :: Z
          simp
        have hdir : pyDirname (pyJoin (pyJoin wd "world_new") tail) =
            String.mk ((pyJoin wd "world_new").data ++ '/' :: Y) := by
          rw [hout]
          exact pyDirname_concat _ Z c hA2last hcne hz
        refine ⟨splitOnCharList '/' Y, ?_⟩
        rw [hdir, resolveSegs,
          show (String.mk ((pyJoin wd "world_new").data ++ '/' :: Y)).data =
            (pyJoin wd "world_new").data ++ '/' :: Y from rfl,
          splitOnCharList_sep, List.foldl_append,
          foldl_resolveStep_clean _ _ hYclean,
          show (splitOnCharList '/' (pyJoin wd "world_new").data).foldl resolveStep [] =
            resolveSegs (pyJoin wd "world_new") from rfl, hWres]
        simp
      · have hdir : pyDirname (pyJoin (pyJoin wd "world_new") tail) =
            pyJoin wd "world_new" := by
          rw [string_eq_mk_of_data (pyJoin (pyJoin wd "world_new") tail) _ hod]
          exact pyDirname_concat (pyJoin wd "world_new") tail.data 'w' hWlast
            (by decide) hsl
        refine ⟨[], ?_⟩
        rw [hdir, hWres]

/-- A path resolving strictly under `world_new` designates neither the live
`world` directory nor `world_old` (nor anything inside them). -/
theorem not_touches_of_shape (wd q : String)
    (h : ∃ T, resolveSegs q = resolveSegs wd ++ "world_new".data :: T) :
    ¬ Touches (pyJoin wd "world") q ∧ ¬ Touches (pyJoin wd "world_old") q := by
  obtain ⟨T, hT⟩ := h
  constructor
  · rw [Touches, hT,
      resolveSegs_join_seg wd "world" (by decide) (by decide) (by decide)]
    exact not_prefix_mid (resolveSegs wd) "world".data "world_new".data [] T (by decide)
  · rw [Touches, hT,
      resolveSegs_join_seg wd "world_old" (by decide) (by decide) (by decide)]
    exact not_prefix_mid (resolveSegs wd) "world_old".data "world_new".data [] T
      (by decide)

/-- Every operation emitted by the member loop for confined members is safe:
it only designates paths resolving under `world_new`, and it is never a
rename. -/
theorem extractLoop_safe (wd dn : String) (failAt : Option Nat) :
    ∀ (members : List String) (idx : Nat),
      (∀ m ∈ members, memberConfined dn m = true) →
      ∀ op ∈ (extractLoop (pyJoin wd "world_new") dn failAt members idx).1,
        SafeOp wd op ∧ ∀ s d, op ≠ FsOp.rename s d := by
  intro members
  induction members with
  | nil =>
    intro idx _ op hop
    rw [extractLoop] at hop
    exact absurd hop (List.not_mem_nil op)
  | cons m rest ih =>
    intro idx hconf op hop
    rw [extractLoop] at hop
    cases hpm : processMember (pyJoin wd "world_new") dn m with
    | skipped =>
      rw [hpm] at hop
      exact ih (idx + 1) (fun u hu => hconf u (List.mem_cons_of_mem m hu)) op hop
    | assertFailed =>
      rw [hpm] at hop
      exact absurd hop (List.not_mem_nil op)
    | extract out isDir =>
      rw [hpm] at hop
      dsimp only at hop
      obtain ⟨tail, hmt, hout⟩ : ∃ tail, memberTail dn m = some tail ∧
          out = pyJoin (pyJoin wd "world_new") tail := by
        rw [processMember] at hpm
        cases hm2 : memberTail dn m with
        | none =>
          rw [hm2] at hpm
          exact absurd hpm (by simp)
        | some t =>
          rw [hm2] at hpm
          dsimp only at hpm
          by_cases hs : pyStartsWith (pyJoin (pyJoin wd "world_new") t)
              (pyJoin wd "world_new") = true
          · rw [if_pos hs] at hpm
            refine ⟨t, rfl, ?_⟩
            injection hpm with h1 _
            exact h1.symm
          · rw [if_neg hs] at hpm
            exact absurd hpm (by simp)
      have htail : tail = "" ∨ cleanTail tail = true := by
        have hcm := hconf m (List.mem_cons_self m rest)
        rw [memberConfined, hmt] at hcm
        simpa using hcm
      obtain ⟨hshape, hshapeD⟩ := out_resolution wd tail htail
      have hsafe_out : SafeOp wd (FsOp.writeFile out) ∧
          SafeOp wd (FsOp.mkdirs out) := by
        have := not_touches_of_shape wd (pyJoin (pyJoin wd "world_new") tail) hshape
        rw [← hout] at this
        constructor <;>
          exact fun p hp => by
            rw [List.mem_singleton.mp hp]
            exact this
      have hsafe_dir : SafeOp wd (FsOp.mkdirs (pyDirname out)) := by
        have := not_touches_of_shape wd
          (pyDirname (pyJoin (pyJoin wd "world_new") tail)) hshapeD
        rw [← hout] at this
        exact fun p hp => by
          rw [List.mem_singleton.mp hp]
          exact this
      have hrest := ih (idx + 1) (fun u hu => hconf u (List.mem_cons_of_mem m hu))
      cases isDir with
      | true =>
        rw [if_pos rfl] at hop
        rcases List.mem_cons.mp hop with hop1 | hop2
        · rw [hop1]
          exact ⟨hsafe_out.2, fun s d => by simp⟩
        · exact hrest op hop2
      | false =>
        rw [if_neg (by simp)] at hop
        by_cases hfa : failAt = some idx
        · rw [if_pos hfa] at hop
          rcases List.mem_cons.mp hop with hop1 | hop2
          · rw [hop1]
            exact ⟨hsafe_dir, fun s d => by simp⟩
          · rw [List.mem_singleton.mp hop2]
            exact ⟨hsafe_out.1, fun s d => by simp⟩
        · rw [if_neg hfa] at hop
          rcases List.mem_append.mp hop with hop1 | hop2
          · rcases List.mem_cons.mp hop1 with hop3 | hop4
            · rw [hop3]
              exact ⟨hsafe_dir, fun s d => by simp⟩
            · rw [List.mem_singleton.mp hop4]
              exact ⟨hsafe_out.1, fun s d => by simp⟩
          · exact hrest op hop2

/-- **C9 amended.** For every import run whose archive entries are confined —
each entry is either skipped by prefix stripping or strips to an empty or
normal relative path with no `..` components (i.e. absent the C3 path-escape
bug) — the live `world` directory and the `world_old` rollback copy are
touched only by the final publish sequence `finalRenames` (remove stale
`world_old`, rename `world` to `world_old`, rename `world_new` to `world`),
which runs only after every entry extracted successfully; a run aborted by an
extraction error performs no rename and no operation designating `world` or
`world_old`, so the live world is unchanged and the rollback copy is
retained, with all partial output confined under `world_new`. -/
theorem world_extract_atomic_publish (wd dirname : String) (st : Status)
    (dirs : WorldDirs) (members : List String) (failAt : Option Nat)
    (hconf : ∀ m ∈ members, memberConfined (processedDirname dirname) m = true) :
    (∀ ops, worldExtract wd st dirs dirname members failAt =
        ExtractResult.failed ops →
      ∀ op ∈ ops, SafeOp wd op ∧ ∀ s d, op ≠ FsOp.rename s d) ∧
    (∀ ops, worldExtract wd st dirs dirname members failAt =
        ExtractResult.completed ops →
      ∃ body, ops = body ++ finalRenames wd dirs ∧
        ∀ op ∈ body, SafeOp wd op ∧ ∀ s d, op ≠ FsOp.rename s d) := by
  have hpre : ∀ op ∈ (if dirs.worldNewExists then
      [FsOp.rmtree (pyJoin wd "world_new")] else []),
      SafeOp wd op ∧ ∀ s d, op ≠ FsOp.rename s d := by
    intro op hop
    by_cases hex : dirs.worldNewExists
    · rw [if_pos hex] at hop
      rw [List.mem_singleton.mp hop]
      refine ⟨?_, fun s d => by simp⟩
      have hW : ∃ T, resolveSegs (pyJoin wd "world_new") =
          resolveSegs wd ++ "world_new".data :: T :=
        ⟨[], resolveSegs_join_seg wd "world_new" (by decide) (by decide) (by decide)⟩
      exact fun p hp => by
        rw [List.mem_singleton.mp hp]
        exact not_touches_of_shape wd (pyJoin wd "world_new") hW
    · rw [if_neg hex] at hop
      exact absurd hop (List.not_mem_nil op)
  have hbody := extractLoop_safe wd (processedDirname dirname) failAt members 0 hconf
  rw [worldExtract]
  by_cases hst : st ≠ Status.stopped
  · rw [if_pos hst]
    exact ⟨fun ops h => ExtractResult.noConfusion h,
      fun ops h => ExtractResult.noConfusion h⟩
  · rw [if_neg hst]
    dsimp only
    by_cases hok : (extractLoop (pyJoin wd "world_new") (processedDirname dirname)
        failAt members 0).2 = true
    · rw [if_pos hok]
      refine ⟨fun ops h => ExtractResult.noConfusion h, fun ops h => ?_⟩
      have hops := (ExtractResult.completed.injEq _ _).mp h
      refine ⟨(if dirs.worldNewExists then
          [FsOp.rmtree (pyJoin wd "world_new")] else []) ++
        (extractLoop (pyJoin wd "world_new") (processedDirname dirname)
          failAt members 0).1, by rw [← hops, List.append_assoc], ?_⟩
      intro op hop
      rcases List.mem_append.mp hop with h1 | h2
      · exact hpre op h1
      · exact hbody op h2
    · rw [if_neg hok]
      refine ⟨fun ops h => ?_, fun ops h => ExtractResult.noConfusion h⟩
      have hops := (ExtractResult.failed.injEq _ _).mp h
      intro op hop
      rw [← hops] at hop
      rcases List.mem_append.mp hop with h1 | h2
      · exact hpre op h1
      · exact hbody op h2

/-- C9's amended statement at a concrete confined import: strip prefix
`top`, a directory entry, a file entry and a skipped foreign entry, no
failure injected. -/
theorem world_extract_atomic_publish_witness :
    (∀ ops, worldExtract "wd" Status.stopped ⟨true, true, true⟩ "top"
        ["top/", "top/level.dat", "other/x"] none = ExtractResult.failed ops →
      ∀ op ∈ ops, SafeOp "wd" op ∧ ∀ s d, op ≠ FsOp.rename s d) ∧
    (∀ ops, worldExtract "wd" Status.stopped ⟨true, true, true⟩ "top"
        ["top/", "top/level.dat", "other/x"] none = ExtractResult.completed ops →
      ∃ body, ops = body ++ finalRenames "wd" ⟨true, true, true⟩ ∧
        ∀ op ∈ body, SafeOp "wd" op ∧ ∀ s d, op ≠ FsOp.rename s d) :=
  world_extract_atomic_publish "wd" "top" Status.stopped ⟨true, true, true⟩
    ["top/", "top/level.dat", "other/x"] none (by decide)

/-- **C9 counterexample.** As stated, the claim promises that any error
during extraction leaves the live world directory unchanged, with partial
output confined to `world_new`, for *every* import run.  The same unnormalized
`startswith` assert as in C3 lets a `..` entry through: importing an archive
whose first entry is `../world/x` (strip prefix empty) with an extraction
error injected at that entry produces a failed run whose trace has already
created `wd/world_new/../world` — which resolves to the live world directory
`wd/world` — and written the partial file `wd/world_new/../world/x` inside
it. -/
theorem world_extract_escape_touches_world :
    worldExtract "wd" Status.stopped ⟨false, false, true⟩ "" ["../world/x", "y"]
      (some 0) =
      ExtractResult.failed
        [FsOp.mkdirs "wd/world_new/../world",
          FsOp.writeFile "wd/world_new/../world/x"] ∧
    Touches (pyJoin "wd" "world") "wd/world_new/../world" ∧
    Touches (pyJoin "wd" "world") "wd/world_new/../world/x" ∧
    resolveSegs (pyJoin "wd" "world") = resolveSegs "wd/world_new/../world" :=
  ⟨by decide, by decide, by decide, by decide⟩

end MCHTTP
